import Mathlib

set_option maxHeartbeats 1000000

/-!
Verification development for the virtual-memory subsystem (package mm) of
this repository.  The source tree contains the data-model declarations of
`MemoryManager`, `vma` and `pma` (with their documented invariants); the
operation bodies (map/unmap/protect/resolve/fork/invalidate) are modelled
from the specification, faithful to its words, as noted on each definition.
Addresses, offsets and sizes are natural numbers of bytes; a "file" is
identified by a natural number, with file 0 standing for the
MemoryManager's own pgalloc.MemoryFile (the store backing private memory).
-/

/-- Page size in bytes (hostarch.PageSize). -/
def pageSize : Nat := 4096

/-- Modelled from hostarch.AccessType: read/write/execute permission bits. -/
structure AccessType where
  read : Bool
  write : Bool
  execute : Bool
deriving DecidableEq

/-- Modelled from hostarch.AccessType.Effective: in Linux, write and execute
access generally imply read access, so the effective set adds read whenever
write or execute is present. -/
def AccessType.effective (a : AccessType) : AccessType :=
  if a.write || a.execute then { a with read := true } else a

/-- Intersection of two permission sets. -/
def AccessType.intersect (a b : AccessType) : AccessType :=
  ⟨a.read && b.read, a.write && b.write, a.execute && b.execute⟩

/-- Boolean subset test on permission sets (hostarch.AccessType.SubsetOf). -/
def AccessType.subsetOf (a b : AccessType) : Bool :=
  (!a.read || b.read) && (!a.write || b.write) && (!a.execute || b.execute)

/-- hostarch.AnyAccess: full permissions. -/
def AccessType.anyAccess : AccessType := ⟨true, true, true⟩

/-- Drop the write bit (used when copy-on-write is pending). -/
def AccessType.noWrite (a : AccessType) : AccessType := { a with write := false }

/-- Memory-management error kinds (linuxerr analogues surfaced by mm). -/
inductive Err where
  | invalidArgument
  | notFound
  | accessDenied
  | outOfMemory
  | objectGone
deriving DecidableEq

/-- Modelled from hostarch.AddrRange: half-open interval [start, stop). -/
structure AddrRange where
  start : Nat
  stop : Nat
deriving DecidableEq

/-- Byte length of a range. -/
def AddrRange.length (r : AddrRange) : Nat := r.stop - r.start

/-- Page alignment of an address. -/
def pageAligned (n : Nat) : Prop := n % pageSize = 0

instance (n : Nat) : Decidable (pageAligned n) := by
  unfold pageAligned; infer_instance

/-- Well-formed range: nonempty with page-aligned bounds. -/
def AddrRange.wf (r : AddrRange) : Prop :=
  r.start < r.stop ∧ pageAligned r.start ∧ pageAligned r.stop

instance (r : AddrRange) : Decidable r.wf := by
  unfold AddrRange.wf pageAligned; infer_instance

/-- Membership of an address in a range. -/
def AddrRange.containsAddr (r : AddrRange) (a : Nat) : Prop :=
  r.start ≤ a ∧ a < r.stop

instance (r : AddrRange) (a : Nat) : Decidable (r.containsAddr a) := by
  unfold AddrRange.containsAddr; infer_instance

/-- Range r covers range s entirely (hostarch.AddrRange.IsSupersetOf). -/
def AddrRange.isSupersetOf (r s : AddrRange) : Prop :=
  r.start ≤ s.start ∧ s.stop ≤ r.stop

instance (r s : AddrRange) : Decidable (r.isSupersetOf s) := by
  unfold AddrRange.isSupersetOf; infer_instance

/-- Two ranges overlap, i.e. share at least one address. -/
def AddrRange.overlaps (r s : AddrRange) : Prop :=
  max r.start s.start < min r.stop s.stop

instance (r s : AddrRange) : Decidable (r.overlaps s) := by
  unfold AddrRange.overlaps; infer_instance

/-- Intersection of two ranges (empty when they do not overlap). -/
def interRange (a b : AddrRange) : AddrRange :=
  ⟨max a.start b.start, min a.stop b.stop⟩

/-- Pieces of range r lying outside the cut range ar: the at most two
maximal subranges of r disjoint from ar.  This is the effect of the segment
set's Isolate-and-Remove on one segment. -/
def cutOutside (ar r : AddrRange) : List AddrRange :=
  (if r.start < min r.stop ar.start then [⟨r.start, min r.stop ar.start⟩] else []) ++
  (if max r.start ar.stop < r.stop then [⟨max r.start ar.stop, r.stop⟩] else [])

/-- Rounding an address down to its page base. -/
def pageDown (a : Nat) : Nat := a - a % pageSize

/-- Modelled from the source's vma struct (fields not needed by any claim,
such as mlockMode, NUMA policy, id and hint, are omitted).  mappable is the
id of the backing object, none for an anonymous mapping; priv renders the
source field named private (a Lean keyword). -/
structure vma where
  mappable : Option Nat
  off : Nat
  realPerms : AccessType
  effectivePerms : AccessType
  maxPerms : AccessType
  priv : Bool
  growsDown : Bool
  dontfork : Bool
deriving DecidableEq

/-- Modelled from the source's pma struct.  fileId is the id of the mapped
file, 0 standing for the MemoryManager's own memory file; priv renders the
source field named private. -/
structure pma where
  fileId : Nat
  off : Nat
  translatePerms : AccessType
  effectivePerms : AccessType
  maxPerms : AccessType
  needCOW : Bool
  priv : Bool
deriving DecidableEq

/-- Modelled from memmap.InvalidateOpts. -/
structure InvalidateOpts where
  invalidatePrivate : Bool
deriving DecidableEq

/-- Modelled from the source's invalidateArgs struct. -/
structure invalidateArgs where
  ar : AddrRange
  opts : InvalidateOpts
deriving DecidableEq

/-- Modelled from the spec: a Backing Object's translate operation may
return broader coverage than requested (growPages extra pages, clamped to
the optional range) and its own permission set (which may be narrower or
broader than the vma's).  frontendFD.Translate in the source is the
instance returning the whole optional range. -/
structure BackingObject where
  ceiling : AccessType
  growPages : Nat

/-- Modelled from the spec: translate(required, optional) returns a source
range with required ⊆ source ⊆ optional together with the translated
permissions. -/
def BackingObject.translate (obj : BackingObject) (required optional : AddrRange) :
    AddrRange × AccessType :=
  (⟨required.start, min (required.stop + obj.growPages * pageSize) optional.stop⟩,
   obj.ceiling)

/-- Modelled from the source's MemoryManager struct: the fields the claims
are about.  vmas and pmas are the two interval maps (represented as lists
of range/value pairs whose well-formedness is the MMInv invariant below);
usageAS caches vmas.Span(), curRSS caches pmas.Span(), maxRSS is the
historical maximum; asActive models as != nil (an AddressSpace is held,
active or cached); platformUnmaps logs eager unmap calls made on the held
platform.AddressSpace; nextPrivateOff is the allocation cursor into the
memory file (file 0). -/
structure MemoryManager where
  vmas : List (AddrRange × vma)
  pmas : List (AddrRange × pma)
  usageAS : Nat
  curRSS : Nat
  maxRSS : Nat
  asActive : Bool
  unmapAllOnActivate : Bool
  platformUnmaps : List AddrRange
  captureInvalidations : Bool
  capturedInvalidations : List invalidateArgs
  nextPrivateOff : Nat
deriving DecidableEq

/-- Content of the backing files: value of byte o of file f. -/
def Store : Type := Nat → Nat → Nat

/-- A MemoryManager together with the environment it runs against: the
backing objects and the content store. -/
structure World where
  mm : MemoryManager
  objs : Nat → BackingObject
  store : Store

/-- Sum of the lengths of the ranges of an interval list; with the
non-overlap invariant this is the map's Span(). -/
def spanOf {α : Type} (l : List (AddrRange × α)) : Nat :=
  (l.map fun rp => rp.1.length).sum

/-- No two listed ranges overlap. -/
def pairwiseDisjoint {α : Type} (l : List (AddrRange × α)) : Prop :=
  l.Pairwise fun a b => ¬ a.1.overlaps b.1

/-- First entry whose range fully covers ar (unique under the non-overlap
invariant). -/
def findCovering {α : Type} (l : List (AddrRange × α)) (ar : AddrRange) :
    Option (AddrRange × α) :=
  l.find? fun rp => decide (rp.1.isSupersetOf ar)

/-- First entry whose range contains address a. -/
def findCoveringAddr {α : Type} (l : List (AddrRange × α)) (a : Nat) :
    Option (AddrRange × α) :=
  l.find? fun rp => decide (rp.1.containsAddr a)

/-- Cut a vma segment by ar, keeping the pieces outside ar with the
mappable offset adjusted. -/
def cutVma (ar r : AddrRange) (v : vma) : List (AddrRange × vma) :=
  (cutOutside ar r).map fun s => (s, { v with off := v.off + (s.start - r.start) })

/-- Cut a pma segment by ar, keeping the pieces outside ar with the file
offset adjusted. -/
def cutPma (ar r : AddrRange) (p : pma) : List (AddrRange × pma) :=
  (cutOutside ar r).map fun s => (s, { p with off := p.off + (s.start - r.start) })

/-- A pma is affected by an invalidation: per the source pma struct docs,
calls to Invalidate for which InvalidateOpts.InvalidatePrivate is false
ignore private pmas. -/
def pmaAffected (opts : InvalidateOpts) (p : pma) : Bool :=
  opts.invalidatePrivate || !p.priv

/-- Modelled from the spec: invalidation tears down the parts of affected
pmas that overlap the invalidated range. -/
def invalidatePmas (ar : AddrRange) (opts : InvalidateOpts)
    (ps : List (AddrRange × pma)) : List (AddrRange × pma) :=
  ps.flatMap fun rp =>
    if decide (rp.1.overlaps ar) && pmaAffected opts rp.2 then cutPma ar rp.1 rp.2
    else [rp]

/-- Total resident bytes removed by an invalidation (for the incremental
RSS update). -/
def invalidateRemoved (ar : AddrRange) (opts : InvalidateOpts)
    (ps : List (AddrRange × pma)) : Nat :=
  (ps.map fun rp =>
    if decide (rp.1.overlaps ar) && pmaAffected opts rp.2
    then (interRange ar rp.1).length else 0).sum

/-- Modelled from the spec and the source's unmapAllOnActivate docs:
invalidation removes the overlapping parts of affected pmas, decrements the
resident-size counter by exactly the removed length, and propagates to the
Platform Address Space: immediately (an eager unmap call) if an
AddressSpace is held (as != nil), else by marking unmapAllOnActivate so the
next activation starts from an empty AddressSpace. -/
def MemoryManager.invalidateLocked (mm : MemoryManager) (ar : AddrRange)
    (opts : InvalidateOpts) : MemoryManager :=
  { mm with
    pmas := invalidatePmas ar opts mm.pmas,
    curRSS := mm.curRSS - invalidateRemoved ar opts mm.pmas,
    platformUnmaps :=
      if (mm.pmas.any fun rp => decide (rp.1.overlaps ar) && pmaAffected opts rp.2)
          && mm.asActive
      then ar :: mm.platformUnmaps else mm.platformUnmaps,
    unmapAllOnActivate :=
      if (mm.pmas.any fun rp => decide (rp.1.overlaps ar) && pmaAffected opts rp.2)
          && !mm.asActive
      then true else mm.unmapAllOnActivate }

/-- Modelled from the source's captureInvalidations docs: during a fork
window, MM.Invalidate records its arguments in capturedInvalidations
instead of applying them to pmas. -/
def MemoryManager.invalidateOp (mm : MemoryManager) (ar : AddrRange)
    (opts : InvalidateOpts) : MemoryManager :=
  if mm.captureInvalidations then
    { mm with capturedInvalidations := mm.capturedInvalidations ++ [⟨ar, opts⟩] }
  else mm.invalidateLocked ar opts

/-- Remove range ar from the vma map, splitting boundary vmas. -/
def removeVmas (ar : AddrRange) (vs : List (AddrRange × vma)) :
    List (AddrRange × vma) :=
  vs.flatMap fun rv =>
    if decide (rv.1.overlaps ar) then cutVma ar rv.1 rv.2 else [rv]

/-- Total mapped bytes removed from the vma map by an unmap of ar. -/
def removedVmaSpan (ar : AddrRange) (vs : List (AddrRange × vma)) : Nat :=
  (vs.map fun rv =>
    if decide (rv.1.overlaps ar) then (interRange ar rv.1).length else 0).sum

/-- Modelled from the spec: remove-mapping first tears down every pma
overlapping the removed range (invalidateLocked, private pmas included),
then splits boundary vmas, removes interior ones, and decrements the
mapped-size counter by exactly the removed length. -/
def MemoryManager.munmapLocked (mm : MemoryManager) (ar : AddrRange) :
    MemoryManager :=
  let mm1 := mm.invalidateLocked ar ⟨true⟩
  { mm1 with vmas := removeVmas ar mm1.vmas,
             usageAS := mm1.usageAS - removedVmaSpan ar mm1.vmas }

/-- Modelled from the spec: unmap validates its range and then removes it. -/
def MemoryManager.munmapOp (mm : MemoryManager) (ar : AddrRange) :
    Except Err MemoryManager :=
  if ar.wf then .ok (mm.munmapLocked ar) else .error .invalidArgument

/-- Modelled from the spec: insert-mapping with MAP_FIXED-style placement:
after validation any overlapping existing mappings are replaced (their pmas
torn down first via munmapLocked), the new vma is inserted, and the
mapped-size counter grows by exactly the inserted length.  The permission
fields follow the source vma struct invariants: effectivePerms is
realPerms.Effective() and maxPerms is Effective()-closed. -/
def MemoryManager.mmapOp (mm : MemoryManager) (ar : AddrRange)
    (perms maxP : AccessType) (mappableId : Option Nat) (off : Nat)
    (priv : Bool) : Except Err MemoryManager :=
  if ar.wf then
    let mm1 := mm.munmapLocked ar
    let v : vma := { mappable := mappableId, off := off, realPerms := perms,
                     effectivePerms := perms.effective, maxPerms := maxP.effective,
                     priv := priv, growsDown := false, dontfork := false }
    .ok { mm1 with vmas := (ar, v) :: mm1.vmas,
                   usageAS := mm1.usageAS + ar.length }
  else .error .invalidArgument

/-- Split one overlapping vma for protect: pieces outside ar keep their
permissions; the piece under ar gets the new requested permissions, with
effectivePerms maintained as realPerms.Effective() per the source vma
struct invariant. -/
def protectVma (perms : AccessType) (ar r : AddrRange) (v : vma) :
    List (AddrRange × vma) :=
  let i := interRange ar r
  cutVma ar r v ++
    [(i, { v with off := v.off + (i.start - r.start), realPerms := perms,
                  effectivePerms := perms.effective })]

/-- Split one overlapping pma for protect: the piece under ar has its
effective permissions narrowed (without being destroyed): the new vma
effective permissions masked by translatePerms, with write disallowed while
copy-on-write is pending, per the source pma struct docs. -/
def protectPma (perms : AccessType) (ar r : AddrRange) (p : pma) :
    List (AddrRange × pma) :=
  let i := interRange ar r
  let e := perms.effective.intersect p.translatePerms
  cutPma ar r p ++
    [(i, { p with off := p.off + (i.start - r.start),
                  effectivePerms := if p.needCOW then e.noWrite else e })]

/-- Modelled from the spec: protect validates the range, fails with
AccessDenied if the new permissions exceed the maximum permissions of any
overlapping vma, and otherwise splits vmas at the range boundaries, updates
the requested and effective permissions inside it, and narrows the
effective rights of overlapping pmas without destroying them. -/
def MemoryManager.mprotectOp (mm : MemoryManager) (ar : AddrRange)
    (perms : AccessType) : Except Err MemoryManager :=
  if ar.wf then
    if mm.vmas.all fun rv =>
        !decide (rv.1.overlaps ar) || perms.effective.subsetOf rv.2.maxPerms then
      .ok { mm with
        vmas := mm.vmas.flatMap fun rv =>
          if decide (rv.1.overlaps ar) then protectVma perms ar rv.1 rv.2 else [rv],
        pmas := mm.pmas.flatMap fun rp =>
          if decide (rp.1.overlaps ar) then protectPma perms ar rp.1 rp.2 else [rp] }
    else .error .accessDenied
  else .error .invalidArgument

/-- Subranges of a not covered by any listed pma (the pma gaps). -/
def gapsIn (a : AddrRange) : List (AddrRange × pma) → List AddrRange
  | [] => [a]
  | rp :: rest => (cutOutside rp.1 a).flatMap fun g => gapsIn g rest

/-- Zero-fill [off, off+len) of file 0 (fresh private storage content). -/
def zeroFill (s : Store) (off len : Nat) : Store :=
  fun f o => if f = 0 ∧ off ≤ o ∧ o < off + len then 0 else s f o

/-- Copy len bytes from (srcFile, srcOff) to (0, dstOff). -/
def copyRange (s : Store) (dstOff srcFile srcOff len : Nat) : Store :=
  fun f o =>
    if f = 0 ∧ dstOff ≤ o ∧ o < dstOff + len then s srcFile (srcOff + (o - dstOff))
    else s f o

/-- Modelled from the spec: break-COW pass of the fault resolver.  For each
existing pma overlapping the faulting range, when the access includes write
and the matching vma is private while the pma is not already private (it
caches a shared translation), allocate new private storage, copy the
current content, and replace the pma entry for exactly the overlapping
sub-range, leaving the rest of the old pma intact.  Returns the updated pma
list, the new allocation cursor and the new store. -/
def breakCowAll (ar : AddrRange) (v : vma) (acc : AccessType) :
    List (AddrRange × pma) → Nat → Store →
      List (AddrRange × pma) × Nat × Store
  | [], off, s => ([], off, s)
  | (r, p) :: rest, off, s =>
    if decide (r.overlaps ar) && acc.write && v.priv && !p.priv then
      let i := interRange ar r
      let pNew : pma := { fileId := 0, off := off,
                          translatePerms := AccessType.anyAccess,
                          effectivePerms := v.effectivePerms,
                          maxPerms := v.maxPerms, needCOW := false, priv := true }
      let s1 := copyRange s off p.fileId (p.off + (i.start - r.start)) i.length
      let q := breakCowAll ar v acc rest (off + i.length) s1
      (cutPma ar r p ++ [(i, pNew)] ++ q.1, q.2)
    else
      let q := breakCowAll ar v acc rest off s
      ((r, p) :: q.1, q.2)

/-- Modelled from the spec: population pass of the fault resolver over the
pma gaps of the covering vma that intersect the faulting range.  For an
anonymous vma, zero-filled private storage is allocated for exactly the
required sub-range; for an object-backed vma the Backing Object's translate
is called with the required sub-range and the whole gap as the optional
range, and the whole translated source range is cached as a new pma, its
effective rights capped by the translated permissions (and write withheld
while copy-on-write is pending on a private vma).  Returns the new pmas,
the allocation cursor, the store and the total resident bytes added. -/
def populateGaps (objs : Nat → BackingObject) (vr : AddrRange) (v : vma)
    (ar : AddrRange) :
    List AddrRange → Nat → Store →
      List (AddrRange × pma) × Nat × Store × Nat
  | [], off, s => ([], off, s, 0)
  | g :: rest, off, s =>
    let required := interRange g ar
    match v.mappable with
    | none =>
      let pNew : pma := { fileId := 0, off := off,
                          translatePerms := AccessType.anyAccess,
                          effectivePerms := v.effectivePerms,
                          maxPerms := v.maxPerms, needCOW := false, priv := true }
      let s1 := zeroFill s off required.length
      let q := populateGaps objs vr v ar rest (off + required.length) s1
      ((required, pNew) :: q.1, q.2.1, q.2.2.1, required.length + q.2.2.2)
    | some objId =>
      let t := (objs objId).translate required g
      let pNew : pma := { fileId := objId, off := v.off + (t.1.start - vr.start),
                          translatePerms := t.2,
                          effectivePerms :=
                            if v.priv then (v.effectivePerms.intersect t.2).noWrite
                            else v.effectivePerms.intersect t.2,
                          maxPerms :=
                            if v.priv then (v.maxPerms.intersect t.2).noWrite
                            else v.maxPerms.intersect t.2,
                          needCOW := v.priv, priv := false }
      let q := populateGaps objs vr v ar rest off s
      ((t.1, pNew) :: q.1, q.2.1, q.2.2.1, t.1.length + q.2.2.2)

/-- Modelled from the spec: Resolve(range, accessType, ignorePermissions),
the central fault-resolution algorithm.  Validates the range, finds the
covering vma (not-found surfaces as a fault/SEGV), checks permissions
unless ignorePermissions, breaks copy-on-write where needed, populates
missing pmas, and maintains the resident-size counters incrementally, with
the maximum resident size updated monotonically. -/
def World.resolveOp (w : World) (ar : AddrRange) (acc : AccessType)
    (ignorePerms : Bool) : Except Err World :=
  if ar.wf then
    match findCovering w.mm.vmas ar with
    | none => .error .notFound
    | some rv =>
      if ignorePerms || acc.subsetOf rv.2.effectivePerms then
        let b := breakCowAll ar rv.2 acc w.mm.pmas w.mm.nextPrivateOff w.store
        let gs := (gapsIn rv.1 b.1).filter fun g => decide (g.overlaps ar)
        let q := populateGaps w.objs rv.1 rv.2 ar gs b.2.1 b.2.2
        .ok { mm := { w.mm with
                pmas := b.1 ++ q.1,
                nextPrivateOff := q.2.1,
                curRSS := w.mm.curRSS + q.2.2.2,
                maxRSS := max w.mm.maxRSS (w.mm.curRSS + q.2.2.2) },
              objs := w.objs, store := q.2.2.1 }
      else .error .accessDenied
  else .error .invalidArgument

/-- A page fault at address a: resolve the containing page. -/
def World.fault (w : World) (a : Nat) (acc : AccessType) : Except Err World :=
  w.resolveOp ⟨pageDown a, pageDown a + pageSize⟩ acc false

/-- Read the byte at address a through the pma map. -/
def World.readAddr (w : World) (a : Nat) : Option Nat :=
  match findCoveringAddr w.mm.pmas a with
  | none => none
  | some rp => some (w.store rp.2.fileId (rp.2.off + (a - rp.1.start)))

/-- Mutate one byte of a Backing Object's content (file 0, the
MemoryManager's own memory file, is not a Backing Object). -/
def World.mutateObject (w : World) (f off val : Nat) : World :=
  if f = 0 then w
  else { w with store := fun f1 o1 => if f1 = f ∧ o1 = off then val else w.store f1 o1 }

/-- Modelled from the source's MemoryManager docs: Activate; when
unmapAllOnActivate is set the activation starts from an empty AddressSpace,
clearing the flag. -/
def MemoryManager.activate (mm : MemoryManager) : MemoryManager :=
  { mm with asActive := true, unmapAllOnActivate := false }

/-- Modelled from the spec: fork conversion of a pma whose vma owns its
storage privately: both copies become copy-on-write, with write rights
withheld until the next write fault breaks the sharing. -/
def markCOW (v : vma) (p : pma) : pma :=
  if v.priv then
    { p with needCOW := true, effectivePerms := p.effectivePerms.noWrite,
             maxPerms := p.maxPerms.noWrite }
  else p

/-- Modelled from the spec: the structural copy phase of MM.Fork.
Duplicates every vma not excluded from fork into the child, converts the
pmas of private vmas to copy-on-write in both parent and child (pmas of
fork-excluded vmas are not copied), and turns on invalidation capture on
the parent for the duration of the fork window.  Returns (parent, child). -/
def MemoryManager.forkBegin (mm : MemoryManager) :
    MemoryManager × MemoryManager :=
  let keptVmas := mm.vmas.filter fun rv => !rv.2.dontfork
  let parentPmas := mm.pmas.map fun rp =>
    match findCovering mm.vmas rp.1 with
    | some rv => (rp.1, markCOW rv.2 rp.2)
    | none => rp
  let childPmas := mm.pmas.filterMap fun rp =>
    match findCovering keptVmas rp.1 with
    | some rv => some (rp.1, markCOW rv.2 rp.2)
    | none => none
  ({ mm with pmas := parentPmas, captureInvalidations := true },
   { vmas := keptVmas, pmas := childPmas, usageAS := spanOf keptVmas,
     curRSS := spanOf childPmas, maxRSS := spanOf childPmas,
     asActive := false, unmapAllOnActivate := false, platformUnmaps := [],
     captureInvalidations := false, capturedInvalidations := [],
     nextPrivateOff := mm.nextPrivateOff })

/-- Apply a list of invalidations directly (no capture). -/
def MemoryManager.applyAllInvs (mm : MemoryManager)
    (l : List invalidateArgs) : MemoryManager :=
  l.foldl (fun m a => m.invalidateLocked a.ar a.opts) mm

/-- Deliver a list of invalidations through MM.Invalidate (capture-aware). -/
def deliverInvs (mm : MemoryManager) (l : List invalidateArgs) :
    MemoryManager :=
  l.foldl (fun m a => m.invalidateOp a.ar a.opts) mm

/-- Modelled from the spec: the end of the fork window.  The invalidations
captured on the parent during the window are replayed against the child and
reapplied to the parent, then capture is turned off and the pending list
cleared.  Returns (parent, child). -/
def forkEnd (a b : MemoryManager) : MemoryManager × MemoryManager :=
  let invs := a.capturedInvalidations
  let a1 := a.applyAllInvs invs
  ({ a1 with captureInvalidations := false, capturedInvalidations := [] },
   b.applyAllInvs invs)

/-- The operations whose sequences define the reachable states. -/
inductive MmOp where
  | mmapF (start len : Nat) (perms maxP : AccessType) (mappableId : Option Nat)
      (off : Nat) (priv : Bool)
  | munmapF (start len : Nat)
  | mprotectF (start len : Nat) (perms : AccessType)
  | resolveF (start len : Nat) (acc : AccessType) (ignorePerms : Bool)
  | invalidateF (start len : Nat) (invPriv : Bool)
  | activateF

/-- One step of the operational model; a failing operation leaves the state
unchanged (the error is surfaced to the caller). -/
def World.step (w : World) : MmOp → World
  | .mmapF a len perms maxP mid off priv =>
    match w.mm.mmapOp ⟨a, a + len⟩ perms maxP mid off priv with
    | .ok mm1 => { w with mm := mm1 }
    | .error _ => w
  | .munmapF a len =>
    match w.mm.munmapOp ⟨a, a + len⟩ with
    | .ok mm1 => { w with mm := mm1 }
    | .error _ => w
  | .mprotectF a len perms =>
    match w.mm.mprotectOp ⟨a, a + len⟩ perms with
    | .ok mm1 => { w with mm := mm1 }
    | .error _ => w
  | .resolveF a len acc ig =>
    match w.resolveOp ⟨a, a + len⟩ acc ig with
    | .ok w1 => w1
    | .error _ => w
  | .invalidateF a len invPriv =>
    if (⟨a, a + len⟩ : AddrRange).wf then
      { w with mm := w.mm.invalidateOp ⟨a, a + len⟩ ⟨invPriv⟩ }
    else w
  | .activateF => { w with mm := w.mm.activate }

/-- Run a sequence of operations. -/
def World.run (w : World) (ops : List MmOp) : World :=
  ops.foldl World.step w

/-- The initial MemoryManager: empty maps, zero counters, no AddressSpace. -/
def initMM : MemoryManager :=
  { vmas := [], pmas := [], usageAS := 0, curRSS := 0, maxRSS := 0,
    asActive := false, unmapAllOnActivate := false, platformUnmaps := [],
    captureInvalidations := false, capturedInvalidations := [],
    nextPrivateOff := 0 }

/-- The initial world over a given family of backing objects. -/
def initWorld (objs : Nat → BackingObject) : World :=
  { mm := initMM, objs := objs, store := fun _ _ => 0 }

/-- A state is reachable when some operation sequence from an initial world
produces it. -/
def Reachable (w : World) : Prop :=
  ∃ objs ops, w = (initWorld objs).run ops

/-- The mm invariants: the documented invariants of the source structs plus
the aggregate-counter identities of the spec. -/
structure MMInv (mm : MemoryManager) : Prop where
  vmasWF : ∀ rv ∈ mm.vmas, rv.1.wf
  vmasDisj : pairwiseDisjoint mm.vmas
  pmasWF : ∀ rp ∈ mm.pmas, rp.1.wf
  pmasDisj : pairwiseDisjoint mm.pmas
  contained : ∀ rp ∈ mm.pmas, ∃ rv ∈ mm.vmas, rv.1.isSupersetOf rp.1
  vmaPerms : ∀ rv ∈ mm.vmas, rv.2.effectivePerms = rv.2.realPerms.effective
  usage : mm.usageAS = spanOf mm.vmas
  rss : mm.curRSS = spanOf mm.pmas
  maxRss : mm.curRSS ≤ mm.maxRSS
  privPma : ∀ rp ∈ mm.pmas, rp.2.priv = true →
    rp.2.translatePerms = AccessType.anyAccess ∧ rp.2.fileId = 0

/-- A default backing-object family for concrete scenarios. -/
def objs0 : Nat → BackingObject := fun _ => ⟨AccessType.anyAccess, 0⟩

/-- Read-write permissions. -/
def rwPerms : AccessType := ⟨true, true, false⟩

/-- Read-only permissions. -/
def roPerms : AccessType := ⟨true, false, false⟩

/-- Concrete scenario for the accounting claim: a 10-page anonymous private
mapping at 0x10000 with 4 of its pages touched by write faults. -/
def c7Touched : World :=
  (initWorld objs0).run
    [.mmapF 65536 40960 rwPerms rwPerms none 0 true,
     .resolveF 65536 4096 rwPerms false,
     .resolveF 73728 4096 rwPerms false,
     .resolveF 81920 4096 rwPerms false,
     .resolveF 90112 4096 rwPerms false]

/-- The same scenario after unmapping the whole region. -/
def c7Unmapped : World := c7Touched.run [.munmapF 65536 40960]

/-- Concrete scenario for the invalidation-propagation claim: a resolved
anonymous page with an AddressSpace held (activated). -/
def c9World : World :=
  (initWorld objs0).run
    [.mmapF 65536 4096 rwPerms rwPerms none 0 true,
     .resolveF 65536 4096 rwPerms false,
     .activateF]

/-- The c9 scenario after an external invalidation of the resolved page. -/
def c9After : MemoryManager := c9World.mm.invalidateOp ⟨65536, 69632⟩ ⟨true⟩

/-- Concrete vma for the copy-on-write witness: a private mapping of
backing object 1 over [0x1000, 0x4000). -/
def c2vma : vma :=
  { mappable := some 1, off := 0, realPerms := rwPerms,
    effectivePerms := rwPerms.effective, maxPerms := AccessType.anyAccess,
    priv := true, growsDown := false, dontfork := false }

/-- Concrete pma for the copy-on-write witness: a cached shared translation
(not private, copy-on-write pending) covering the whole vma. -/
def c2pma : pma :=
  { fileId := 1, off := 0, translatePerms := AccessType.anyAccess,
    effectivePerms := rwPerms.effective.noWrite,
    maxPerms := AccessType.anyAccess.noWrite, needCOW := true, priv := false }

/-- Concrete world for the copy-on-write witness: object 1's content is
byte o = o + 7. -/
def c2World : World :=
  { mm := { initMM with vmas := [(⟨4096, 16384⟩, c2vma)],
                        pmas := [(⟨4096, 16384⟩, c2pma)],
                        usageAS := 12288, curRSS := 12288, maxRSS := 12288 },
    objs := objs0,
    store := fun f o => if f = 1 then o + 7 else 0 }

/-- Backing objects for the translate witness: read-only ceiling and one
page of extra coverage. -/
def objs6 : Nat → BackingObject := fun _ => ⟨roPerms, 1⟩

/-- Concrete world for the translate witness: a 3-page shared read-write
mapping of object 2 with no pmas resolved yet. -/
def c6World : World :=
  { mm := { initMM with
      vmas := [(⟨4096, 16384⟩,
        { mappable := some 2, off := 0, realPerms := rwPerms,
          effectivePerms := rwPerms.effective, maxPerms := AccessType.anyAccess,
          priv := false, growsDown := false, dontfork := false })],
      usageAS := 12288 },
    objs := objs6, store := fun _ _ => 0 }

/-- Concrete MemoryManager for the fork witness: one private anonymous
mapping with a resolved private page. -/
def c8MM : MemoryManager :=
  { initMM with
    vmas := [(⟨4096, 16384⟩,
      { mappable := none, off := 0, realPerms := rwPerms,
        effectivePerms := rwPerms.effective, maxPerms := AccessType.anyAccess,
        priv := true, growsDown := false, dontfork := false })],
    pmas := [(⟨4096, 8192⟩,
      { fileId := 0, off := 0, translatePerms := AccessType.anyAccess,
        effectivePerms := rwPerms.effective, maxPerms := AccessType.anyAccess,
        needCOW := false, priv := true })],
    usageAS := 12288, curRSS := 4096, maxRSS := 4096 }

/-- The invalidations delivered during the fork window in the fork witness. -/
def c8Invs : List invalidateArgs := [⟨⟨4096, 8192⟩, ⟨true⟩⟩]

/-- Unfolding helper: page alignment is divisibility of the address by 4096. -/
theorem pageAligned_iff (n : Nat) : pageAligned n ↔ n % 4096 = 0 := by
  unfold pageAligned pageSize; exact Iff.rfl

/-- Every piece of cutOutside lies inside the cut segment, is nonempty, and
is disjoint from the cut range. -/
theorem mem_cutOutside_sub {ar r s : AddrRange} (h : s ∈ cutOutside ar r) :
    r.start ≤ s.start ∧ s.stop ≤ r.stop ∧ s.start < s.stop ∧ ¬ s.overlaps ar := by
  unfold cutOutside at h
  unfold AddrRange.overlaps
  rcases List.mem_append.1 h with h1 | h1 <;> split at h1 <;>
    simp only [List.mem_singleton, List.not_mem_nil] at h1 <;>
    subst h1 <;> simp_all

/-- Pieces of a well-formed segment cut by a well-formed range are
well-formed. -/
theorem mem_cutOutside_wf {ar r s : AddrRange} (har : ar.wf) (hr : r.wf)
    (h : s ∈ cutOutside ar r) : s.wf := by
  unfold cutOutside at h
  unfold AddrRange.wf at *
  simp only [pageAligned_iff] at *
  rcases List.mem_append.1 h with h1 | h1 <;> split at h1 <;>
    simp only [List.mem_singleton, List.not_mem_nil] at h1 <;>
    (try cases h1) <;> simp_all <;> omega

/-- The pieces of a cut are pairwise disjoint. -/
theorem cutOutside_pairwise {ar r : AddrRange} (h : ar.start ≤ ar.stop) :
    (cutOutside ar r).Pairwise fun a b => ¬ a.overlaps b := by
  unfold cutOutside
  split_ifs with h1 h2 h2
  · rw [List.singleton_append]
    refine List.Pairwise.cons ?_ ?_
    · intro b hb
      rw [List.mem_singleton] at hb
      subst hb
      unfold AddrRange.overlaps
      dsimp only
      omega
    · simp
  · simp
  · simp
  · simp

/-- Length accounting for a cut: the pieces plus the removed intersection
make up the original segment. -/
theorem cutOutside_span {ar r : AddrRange} (har : ar.start ≤ ar.stop)
    (hr : r.start ≤ r.stop) :
    ((cutOutside ar r).map AddrRange.length).sum + (interRange ar r).length
      = r.length := by
  unfold cutOutside interRange
  split_ifs with h1 h2 h2 <;>
    simp only [List.map_append, List.map_cons, List.map_nil, List.sum_append,
      List.sum_cons, List.sum_nil, AddrRange.length] <;> omega

/-- A segment disjoint from the cut range is returned unchanged. -/
theorem cutOutside_of_disjoint {ar r : AddrRange} (har : ar.start < ar.stop)
    (hr : r.start < r.stop) (h : ¬ r.overlaps ar) : cutOutside ar r = [r] := by
  unfold AddrRange.overlaps at h
  unfold cutOutside
  split_ifs with h1 h2 h2
  · exfalso; omega
  · have hm : min r.stop ar.start = r.stop := by omega
    rw [hm, List.append_nil]
  · have hm : max r.start ar.stop = r.start := by omega
    rw [hm, List.nil_append]
  · exfalso; omega

/-- Any nonempty subrange of the cut segment that avoids the cut range is
covered by one of the pieces. -/
theorem exists_cutOutside_superset {ar r s : AddrRange}
    (har : ar.start < ar.stop) (hs : s.start < s.stop)
    (h1 : r.start ≤ s.start) (h2 : s.stop ≤ r.stop) (h3 : ¬ s.overlaps ar) :
    ∃ t ∈ cutOutside ar r, t.isSupersetOf s := by
  unfold AddrRange.overlaps at h3
  unfold cutOutside
  rcases Nat.lt_or_ge s.start ar.stop with hc | hc
  · refine ⟨⟨r.start, min r.stop ar.start⟩, ?_, ?_⟩
    · rw [List.mem_append]
      left
      rw [if_pos (by omega)]
      exact List.mem_singleton.2 rfl
    · unfold AddrRange.isSupersetOf
      dsimp only
      omega
  · refine ⟨⟨max r.start ar.stop, r.stop⟩, ?_, ?_⟩
    · rw [List.mem_append]
      right
      rw [if_pos (by omega)]
      exact List.mem_singleton.2 rfl
    · unfold AddrRange.isSupersetOf
      dsimp only
      omega

/-- Disjointness transfers to subranges. -/
theorem not_overlaps_of_sub {a b s t : AddrRange}
    (hs1 : a.start ≤ s.start) (hs2 : s.stop ≤ a.stop)
    (ht1 : b.start ≤ t.start) (ht2 : t.stop ≤ b.stop)
    (h : ¬ a.overlaps b) : ¬ s.overlaps t := by
  unfold AddrRange.overlaps at *
  omega

/-- spanOf distributes over append. -/
theorem spanOf_append {α : Type} (l1 l2 : List (AddrRange × α)) :
    spanOf (l1 ++ l2) = spanOf l1 + spanOf l2 := by
  unfold spanOf
  rw [List.map_append, List.sum_append]

/-- spanOf of a cons. -/
theorem spanOf_cons {α : Type} (x : AddrRange × α) (l : List (AddrRange × α)) :
    spanOf (x :: l) = x.1.length + spanOf l := by
  unfold spanOf
  rw [List.map_cons, List.sum_cons]

/-- Pairwise disjointness is preserved by flatMap when each segment's image
shrinks into the segment and is internally disjoint. -/
theorem pairwiseDisjoint_flatMap {α β : Type} (l : List (AddrRange × α))
    (f : AddrRange × α → List (AddrRange × β))
    (hsub : ∀ x ∈ l, ∀ y ∈ f x, x.1.start ≤ y.1.start ∧ y.1.stop ≤ x.1.stop)
    (hin : ∀ x ∈ l, (f x).Pairwise fun a b => ¬ a.1.overlaps b.1)
    (hl : pairwiseDisjoint l) : pairwiseDisjoint (l.flatMap f) := by
  unfold pairwiseDisjoint at *
  induction l with
  | nil => simp
  | cons a l ih =>
    rw [List.flatMap_cons, List.pairwise_append]
    rcases List.pairwise_cons.1 hl with ⟨ha, hl1⟩
    refine ⟨hin a (List.mem_cons_self a l), ?_, ?_⟩
    · exact ih (fun x hx => hsub x (List.mem_cons_of_mem a hx))
        (fun x hx => hin x (List.mem_cons_of_mem a hx)) hl1
    · intro y hy z hz
      rcases List.mem_flatMap.1 hz with ⟨b, hb, hzb⟩
      rcases hsub a (List.mem_cons_self a l) y hy with ⟨hy1, hy2⟩
      rcases hsub b (List.mem_cons_of_mem a hb) z hzb with ⟨hz1, hz2⟩
      exact not_overlaps_of_sub hy1 hy2 hz1 hz2 (ha b hb)

/-- Span accounting for flatMap: if each segment maps to pieces whose total
length falls short by exactly d, the whole map falls short by the sum of d. -/
theorem spanOf_flatMap {α β : Type} (l : List (AddrRange × α))
    (f : AddrRange × α → List (AddrRange × β)) (d : AddrRange × α → Nat)
    (h : ∀ x ∈ l, spanOf (f x) + d x = x.1.length) :
    spanOf (l.flatMap f) + (l.map d).sum = spanOf l := by
  induction l with
  | nil => simp [spanOf]
  | cons a l ih =>
    rw [List.flatMap_cons, spanOf_append, List.map_cons, List.sum_cons,
      spanOf_cons]
    have ha := h a (List.mem_cons_self a l)
    have hl := ih fun x hx => h x (List.mem_cons_of_mem a hx)
    omega

/-- Membership in cutPma: a piece of cutOutside carrying the pma with
adjusted offset. -/
theorem mem_cutPma {ar r : AddrRange} {p : pma} {y : AddrRange × pma}
    (h : y ∈ cutPma ar r p) :
    y.1 ∈ cutOutside ar r ∧
      y.2 = { p with off := p.off + (y.1.start - r.start) } := by
  unfold cutPma at h
  rcases List.mem_map.1 h with ⟨s, hs, hy⟩
  subst hy
  exact ⟨hs, rfl⟩

/-- Membership in cutVma: a piece of cutOutside carrying the vma with
adjusted offset. -/
theorem mem_cutVma {ar r : AddrRange} {v : vma} {y : AddrRange × vma}
    (h : y ∈ cutVma ar r v) :
    y.1 ∈ cutOutside ar r ∧
      y.2 = { v with off := v.off + (y.1.start - r.start) } := by
  unfold cutVma at h
  rcases List.mem_map.1 h with ⟨s, hs, hy⟩
  subst hy
  exact ⟨hs, rfl⟩

/-- cutPma spans the same bytes as its range pieces. -/
theorem spanOf_cutPma (ar r : AddrRange) (p : pma) :
    spanOf (cutPma ar r p) = ((cutOutside ar r).map AddrRange.length).sum := by
  unfold cutPma spanOf
  rw [List.map_map]
  rfl

/-- cutVma spans the same bytes as its range pieces. -/
theorem spanOf_cutVma (ar r : AddrRange) (v : vma) :
    spanOf (cutVma ar r v) = ((cutOutside ar r).map AddrRange.length).sum := by
  unfold cutVma spanOf
  rw [List.map_map]
  rfl

/-- cutPma is internally pairwise disjoint. -/
theorem cutPma_pairwise {ar r : AddrRange} (p : pma) (h : ar.start ≤ ar.stop) :
    (cutPma ar r p).Pairwise fun a b => ¬ a.1.overlaps b.1 := by
  unfold cutPma
  rw [List.pairwise_map]
  exact cutOutside_pairwise h

/-- cutVma is internally pairwise disjoint. -/
theorem cutVma_pairwise {ar r : AddrRange} (v : vma) (h : ar.start ≤ ar.stop) :
    (cutVma ar r v).Pairwise fun a b => ¬ a.1.overlaps b.1 := by
  unfold cutVma
  rw [List.pairwise_map]
  exact cutOutside_pairwise h

/-- Characterization of invalidatePmas members: each comes from a listed
pma, shrunk into its range, with all fields but the offset preserved. -/
theorem mem_invalidatePmas {ar : AddrRange} {opts : InvalidateOpts}
    {ps : List (AddrRange × pma)} {y : AddrRange × pma}
    (h : y ∈ invalidatePmas ar opts ps) :
    ∃ rp ∈ ps, rp.1.start ≤ y.1.start ∧ y.1.stop ≤ rp.1.stop ∧
      y.2.priv = rp.2.priv ∧ y.2.translatePerms = rp.2.translatePerms ∧
      y.2.fileId = rp.2.fileId ∧ (ar.wf → rp.1.wf → y.1.wf) := by
  unfold invalidatePmas at h
  rcases List.mem_flatMap.1 h with ⟨rp, hrp, hy⟩
  refine ⟨rp, hrp, ?_⟩
  split at hy
  · rcases mem_cutPma hy with ⟨hs, hv⟩
    rcases mem_cutOutside_sub hs with ⟨h1, h2, h3, _⟩
    rw [hv]
    exact ⟨h1, h2, rfl, rfl, rfl, fun ha hr => mem_cutOutside_wf ha hr hs⟩
  · rw [List.mem_singleton] at hy
    subst hy
    exact ⟨Nat.le_refl _, Nat.le_refl _, rfl, rfl, rfl, fun _ hr => hr⟩

/-- invalidatePmas preserves pairwise disjointness. -/
theorem invalidatePmas_disjoint {ar : AddrRange} {opts : InvalidateOpts}
    {ps : List (AddrRange × pma)} (har : ar.start ≤ ar.stop)
    (h : pairwiseDisjoint ps) : pairwiseDisjoint (invalidatePmas ar opts ps) := by
  unfold invalidatePmas
  refine pairwiseDisjoint_flatMap ps _ ?_ ?_ h
  · intro x hx y hy
    split at hy
    · rcases mem_cutPma hy with ⟨hs, _⟩
      rcases mem_cutOutside_sub hs with ⟨h1, h2, _, _⟩
      exact ⟨h1, h2⟩
    · rw [List.mem_singleton] at hy
      subst hy
      exact ⟨Nat.le_refl _, Nat.le_refl _⟩
  · intro x hx
    split
    · exact cutPma_pairwise _ har
    · simp

/-- invalidatePmas preserves range well-formedness. -/
theorem invalidatePmas_wf {ar : AddrRange} {opts : InvalidateOpts}
    {ps : List (AddrRange × pma)} (har : ar.wf)
    (h : ∀ rp ∈ ps, rp.1.wf) :
    ∀ y ∈ invalidatePmas ar opts ps, y.1.wf := by
  intro y hy
  rcases mem_invalidatePmas hy with ⟨rp, hrp, _, _, _, _, _, hwf⟩
  exact hwf har (h rp hrp)

/-- Private pmas survive an invalidation that does not target private
memory, untouched. -/
theorem invalidatePmas_keeps_private {ar : AddrRange}
    {ps : List (AddrRange × pma)} {rp : AddrRange × pma}
    (h : rp ∈ ps) (hp : rp.2.priv = true) :
    rp ∈ invalidatePmas ar ⟨false⟩ ps := by
  unfold invalidatePmas
  refine List.mem_flatMap.2 ⟨rp, h, ?_⟩
  have : pmaAffected ⟨false⟩ rp.2 = false := by
    unfold pmaAffected
    rw [hp]
    rfl
  rw [this, Bool.and_false, if_neg (by simp)]
  exact List.mem_singleton.2 rfl

/-- After an invalidation targeting private memory as well, no remaining
pma overlaps the invalidated range. -/
theorem invalidatePmas_clears {ar : AddrRange} {ps : List (AddrRange × pma)} :
    ∀ y ∈ invalidatePmas ar ⟨true⟩ ps, ¬ y.1.overlaps ar := by
  intro y hy
  unfold invalidatePmas at hy
  rcases List.mem_flatMap.1 hy with ⟨rp, hrp, hyin⟩
  have haff : pmaAffected ⟨true⟩ rp.2 = true := rfl
  rw [haff, Bool.and_true] at hyin
  split at hyin
  · rcases mem_cutPma hyin with ⟨hs, _⟩
    exact (mem_cutOutside_sub hs).2.2.2
  · rw [List.mem_singleton] at hyin
    subst hyin
    simp_all

/-- Span accounting for invalidatePmas: the removed length is exactly the
difference. -/
theorem invalidatePmas_span {ar : AddrRange} {opts : InvalidateOpts}
    {ps : List (AddrRange × pma)} (har : ar.start ≤ ar.stop)
    (h : ∀ rp ∈ ps, rp.1.start ≤ rp.1.stop) :
    spanOf (invalidatePmas ar opts ps) + invalidateRemoved ar opts ps
      = spanOf ps := by
  unfold invalidatePmas invalidateRemoved
  refine spanOf_flatMap ps _ _ ?_
  intro x hx
  split
  · rw [spanOf_cutPma]
    exact cutOutside_span har (h x hx)
  · rw [spanOf_cons]
    unfold spanOf
    simp

/-- Characterization of removeVmas members: each comes from a listed vma,
shrunk into its range and avoiding the removed range, with all fields but
the offset preserved. -/
theorem mem_removeVmas {ar : AddrRange} {vs : List (AddrRange × vma)}
    {y : AddrRange × vma} (h : y ∈ removeVmas ar vs) :
    ∃ rv ∈ vs, rv.1.start ≤ y.1.start ∧ y.1.stop ≤ rv.1.stop ∧
      ¬ y.1.overlaps ar ∧
      y.2.realPerms = rv.2.realPerms ∧ y.2.effectivePerms = rv.2.effectivePerms ∧
      y.2.maxPerms = rv.2.maxPerms ∧ (ar.wf → rv.1.wf → y.1.wf) := by
  unfold removeVmas at h
  rcases List.mem_flatMap.1 h with ⟨rv, hrv, hy⟩
  refine ⟨rv, hrv, ?_⟩
  split at hy
  · rcases mem_cutVma hy with ⟨hs, hv⟩
    rcases mem_cutOutside_sub hs with ⟨h1, h2, h3, h4⟩
    rw [hv]
    exact ⟨h1, h2, h4, rfl, rfl, rfl, fun ha hr => mem_cutOutside_wf ha hr hs⟩
  · rw [List.mem_singleton] at hy
    subst hy
    refine ⟨Nat.le_refl _, Nat.le_refl _, by simp_all, rfl, rfl, rfl, fun _ hr => hr⟩

/-- removeVmas preserves pairwise disjointness. -/
theorem removeVmas_disjoint {ar : AddrRange} {vs : List (AddrRange × vma)}
    (har : ar.start ≤ ar.stop) (h : pairwiseDisjoint vs) :
    pairwiseDisjoint (removeVmas ar vs) := by
  unfold removeVmas
  refine pairwiseDisjoint_flatMap vs _ ?_ ?_ h
  · intro x hx y hy
    split at hy
    · rcases mem_cutVma hy with ⟨hs, _⟩
      rcases mem_cutOutside_sub hs with ⟨h1, h2, _, _⟩
      exact ⟨h1, h2⟩
    · rw [List.mem_singleton] at hy
      subst hy
      exact ⟨Nat.le_refl _, Nat.le_refl _⟩
  · intro x hx
    split
    · exact cutVma_pairwise _ har
    · simp

/-- Span accounting for removeVmas. -/
theorem removeVmas_span {ar : AddrRange} {vs : List (AddrRange × vma)}
    (har : ar.start ≤ ar.stop) (h : ∀ rv ∈ vs, rv.1.start ≤ rv.1.stop) :
    spanOf (removeVmas ar vs) + removedVmaSpan ar vs = spanOf vs := by
  unfold removeVmas removedVmaSpan
  refine spanOf_flatMap vs _ _ ?_
  intro x hx
  split
  · rw [spanOf_cutVma]
    exact cutOutside_span har (h x hx)
  · rw [spanOf_cons]
    unfold spanOf
    simp

/-- A nonempty subrange of a covered range that avoids the removed range is
still covered after removeVmas. -/
theorem removeVmas_covers {ar s : AddrRange} {vs : List (AddrRange × vma)}
    (har : ar.start < ar.stop) (hs : s.start < s.stop) (hd : ¬ s.overlaps ar)
    (hcov : ∃ rv ∈ vs, rv.1.isSupersetOf s) :
    ∃ rv2 ∈ removeVmas ar vs, rv2.1.isSupersetOf s := by
  rcases hcov with ⟨rv, hrv, hsup⟩
  unfold removeVmas
  by_cases ho : rv.1.overlaps ar
  · rcases exists_cutOutside_superset har hs hsup.1 hsup.2 hd with ⟨t, ht, htsup⟩
    refine ⟨(t, { rv.2 with off := rv.2.off + (t.start - rv.1.start) }),
      List.mem_flatMap.2 ⟨rv, hrv, ?_⟩, htsup⟩
    rw [if_pos (by simp [ho])]
    unfold cutVma
    exact List.mem_map.2 ⟨t, ht, rfl⟩
  · refine ⟨rv, List.mem_flatMap.2 ⟨rv, hrv, ?_⟩, hsup⟩
    rw [if_neg (by simp [ho])]
    exact List.mem_singleton.2 rfl

/-- Coverage transfers to subranges. -/
theorem isSupersetOf_of_sub {r s t : AddrRange} (h : r.isSupersetOf s)
    (h1 : s.start ≤ t.start) (h2 : t.stop ≤ s.stop) : r.isSupersetOf t := by
  unfold AddrRange.isSupersetOf at *
  omega

/-- invalidateLocked acts on pmas exactly as invalidatePmas. -/
theorem invalidateLocked_pmas (mm : MemoryManager) (ar : AddrRange)
    (opts : InvalidateOpts) :
    (mm.invalidateLocked ar opts).pmas = invalidatePmas ar opts mm.pmas := rfl

/-- invalidateLocked decrements the resident size by the removed length. -/
theorem invalidateLocked_curRSS (mm : MemoryManager) (ar : AddrRange)
    (opts : InvalidateOpts) :
    (mm.invalidateLocked ar opts).curRSS
      = mm.curRSS - invalidateRemoved ar opts mm.pmas := rfl

/-- invalidateLocked leaves the vma map unchanged. -/
theorem invalidateLocked_vmas (mm : MemoryManager) (ar : AddrRange)
    (opts : InvalidateOpts) : (mm.invalidateLocked ar opts).vmas = mm.vmas := rfl

/-- invalidateLocked leaves the mapped-size counter unchanged. -/
theorem invalidateLocked_usageAS (mm : MemoryManager) (ar : AddrRange)
    (opts : InvalidateOpts) :
    (mm.invalidateLocked ar opts).usageAS = mm.usageAS := rfl

/-- invalidateLocked leaves the maximum resident size unchanged. -/
theorem invalidateLocked_maxRSS (mm : MemoryManager) (ar : AddrRange)
    (opts : InvalidateOpts) :
    (mm.invalidateLocked ar opts).maxRSS = mm.maxRSS := rfl

/-- invalidateLocked leaves the allocation cursor unchanged. -/
theorem invalidateLocked_nextPrivateOff (mm : MemoryManager) (ar : AddrRange)
    (opts : InvalidateOpts) :
    (mm.invalidateLocked ar opts).nextPrivateOff = mm.nextPrivateOff := rfl

/-- invalidateLocked leaves the capture state unchanged. -/
theorem invalidateLocked_capture (mm : MemoryManager) (ar : AddrRange)
    (opts : InvalidateOpts) :
    (mm.invalidateLocked ar opts).captureInvalidations = mm.captureInvalidations ∧
    (mm.invalidateLocked ar opts).capturedInvalidations
      = mm.capturedInvalidations := ⟨rfl, rfl⟩

/-- invalidateLocked preserves the mm invariants. -/
theorem inv_invalidateLocked {mm : MemoryManager} {ar : AddrRange}
    {opts : InvalidateOpts} (har : ar.wf) (h : MMInv mm) :
    MMInv (mm.invalidateLocked ar opts) := by
  have hpm := invalidateLocked_pmas mm ar opts
  have hvm := invalidateLocked_vmas mm ar opts
  have hrss := invalidateLocked_curRSS mm ar opts
  have hspan := @invalidatePmas_span ar opts mm.pmas
    (Nat.le_of_lt har.1) (fun rp hrp => Nat.le_of_lt (h.pmasWF rp hrp).1)
  constructor
  · rw [hvm]; exact h.vmasWF
  · rw [hvm]; exact h.vmasDisj
  · rw [hpm]; exact invalidatePmas_wf har h.pmasWF
  · rw [hpm]; exact invalidatePmas_disjoint (Nat.le_of_lt har.1) h.pmasDisj
  · rw [hpm, hvm]
    intro rp hrp
    rcases mem_invalidatePmas hrp with ⟨rq, hrq, h1, h2, _, _, _, _⟩
    rcases h.contained rq hrq with ⟨rv, hrv, hsup⟩
    exact ⟨rv, hrv, isSupersetOf_of_sub hsup h1 h2⟩
  · rw [hvm]; exact h.vmaPerms
  · rw [invalidateLocked_usageAS, hvm]; exact h.usage
  · rw [hrss, hpm]
    have := h.rss
    omega
  · rw [hrss, invalidateLocked_maxRSS]
    have := h.maxRss
    omega
  · rw [hpm]
    intro rp hrp hp
    rcases mem_invalidatePmas hrp with ⟨rq, hrq, _, _, hpriv, htp, hfid, _⟩
    rcases h.privPma rq hrq (hpriv ▸ hp) with ⟨ht, hf⟩
    exact ⟨htp.trans ht, hfid.trans hf⟩

/-- Overlap is symmetric. -/
theorem overlaps_comm {a b : AddrRange} : a.overlaps b ↔ b.overlaps a := by
  unfold AddrRange.overlaps
  omega

/-- The intersection is inside its first argument. -/
theorem interRange_sub_left (a b : AddrRange) :
    a.start ≤ (interRange a b).start ∧ (interRange a b).stop ≤ a.stop := by
  simp only [interRange]
  omega

/-- The intersection is inside its second argument. -/
theorem interRange_sub_right (a b : AddrRange) :
    b.start ≤ (interRange a b).start ∧ (interRange a b).stop ≤ b.stop := by
  simp only [interRange]
  omega

/-- The intersection of overlapping well-formed ranges is well-formed. -/
theorem interRange_wf {a b : AddrRange} (ha : a.wf) (hb : b.wf)
    (h : a.overlaps b) : (interRange a b).wf := by
  unfold AddrRange.wf AddrRange.overlaps at *
  simp only [interRange, pageAligned_iff] at *
  omega

/-- The intersection is monotone in its second argument. -/
theorem interRange_mono {a r1 r2 : AddrRange} (h1 : r2.start ≤ r1.start)
    (h2 : r1.stop ≤ r2.stop) :
    (interRange a r2).isSupersetOf (interRange a r1) := by
  unfold AddrRange.isSupersetOf
  simp only [interRange]
  omega

/-- munmapLocked tears the pmas overlapping the removed range down first. -/
theorem munmapLocked_pmas (mm : MemoryManager) (ar : AddrRange) :
    (mm.munmapLocked ar).pmas = invalidatePmas ar ⟨true⟩ mm.pmas := rfl

/-- munmapLocked removes the range from the vma map. -/
theorem munmapLocked_vmas (mm : MemoryManager) (ar : AddrRange) :
    (mm.munmapLocked ar).vmas = removeVmas ar mm.vmas := rfl

/-- munmapLocked decrements the mapped size by the removed length. -/
theorem munmapLocked_usageAS (mm : MemoryManager) (ar : AddrRange) :
    (mm.munmapLocked ar).usageAS = mm.usageAS - removedVmaSpan ar mm.vmas := rfl

/-- munmapLocked updates the resident size as the invalidation does. -/
theorem munmapLocked_curRSS (mm : MemoryManager) (ar : AddrRange) :
    (mm.munmapLocked ar).curRSS
      = mm.curRSS - invalidateRemoved ar ⟨true⟩ mm.pmas := rfl

/-- munmapLocked leaves the maximum resident size unchanged. -/
theorem munmapLocked_maxRSS (mm : MemoryManager) (ar : AddrRange) :
    (mm.munmapLocked ar).maxRSS = mm.maxRSS := rfl

/-- After munmapLocked no pma overlaps the removed range. -/
theorem munmapLocked_clears_pmas (mm : MemoryManager) (ar : AddrRange) :
    ∀ y ∈ (mm.munmapLocked ar).pmas, ¬ y.1.overlaps ar := by
  rw [munmapLocked_pmas]
  exact invalidatePmas_clears

/-- After munmapLocked no vma overlaps the removed range. -/
theorem munmapLocked_clears_vmas (mm : MemoryManager) (ar : AddrRange) :
    ∀ y ∈ (mm.munmapLocked ar).vmas, ¬ y.1.overlaps ar := by
  rw [munmapLocked_vmas]
  intro y hy
  exact (mem_removeVmas hy).choose_spec.2.2.2.1

/-- munmapLocked preserves the mm invariants. -/
theorem inv_munmapLocked {mm : MemoryManager} {ar : AddrRange} (har : ar.wf)
    (h : MMInv mm) : MMInv (mm.munmapLocked ar) := by
  have h1 : MMInv (mm.invalidateLocked ar ⟨true⟩) := inv_invalidateLocked har h
  have hpm : (mm.munmapLocked ar).pmas = (mm.invalidateLocked ar ⟨true⟩).pmas := rfl
  have hvm := munmapLocked_vmas mm ar
  constructor
  · rw [hvm]
    intro y hy
    rcases mem_removeVmas hy with ⟨rv, hrv, _, _, _, _, _, _, hwf⟩
    exact hwf har (h.vmasWF rv hrv)
  · rw [hvm]
    exact removeVmas_disjoint (Nat.le_of_lt har.1) h.vmasDisj
  · rw [hpm]; exact h1.pmasWF
  · rw [hpm]; exact h1.pmasDisj
  · rw [hpm, hvm]
    intro rp hrp
    have hncov : ¬ rp.1.overlaps ar := by
      have := munmapLocked_clears_pmas mm ar
      rw [hpm] at this
      exact this rp hrp
    have hwf : rp.1.wf := h1.pmasWF rp hrp
    refine removeVmas_covers har.1 hwf.1 hncov ?_
    have hc := h1.contained rp hrp
    rw [invalidateLocked_vmas] at hc
    exact hc
  · rw [hvm]
    intro y hy
    rcases mem_removeVmas hy with ⟨rv, hrv, _, _, _, hreal, heff, _, _⟩
    rw [hreal, heff]
    exact h.vmaPerms rv hrv
  · rw [munmapLocked_usageAS, hvm]
    have hspan := @removeVmas_span ar mm.vmas
      (Nat.le_of_lt har.1) (fun rv hrv => Nat.le_of_lt (h.vmasWF rv hrv).1)
    have hu := h.usage
    omega
  · rw [munmapLocked_curRSS, hpm, ← invalidateLocked_curRSS]
    exact h1.rss
  · rw [munmapLocked_curRSS, munmapLocked_maxRSS, ← invalidateLocked_curRSS,
      ← invalidateLocked_maxRSS]
    exact h1.maxRss
  · rw [hpm]
    exact h1.privPma

/-- munmapOp preserves the mm invariants. -/
theorem inv_munmapOp {mm mm2 : MemoryManager} {ar : AddrRange}
    (h : MMInv mm) (heq : mm.munmapOp ar = .ok mm2) : MMInv mm2 := by
  unfold MemoryManager.munmapOp at heq
  split at heq
  · rw [Except.ok.injEq] at heq
    subst heq
    exact inv_munmapLocked (by assumption) h
  · cases heq

/-- mmapOp preserves the mm invariants. -/
theorem inv_mmapOp {mm mm2 : MemoryManager} {ar : AddrRange}
    {perms maxP : AccessType} {mid : Option Nat} {off : Nat} {priv : Bool}
    (h : MMInv mm) (heq : mm.mmapOp ar perms maxP mid off priv = .ok mm2) :
    MMInv mm2 := by
  unfold MemoryManager.mmapOp at heq
  split at heq
  case isFalse => cases heq
  case isTrue har =>
    rw [Except.ok.injEq] at heq
    subst heq
    have h1 : MMInv (mm.munmapLocked ar) := inv_munmapLocked har h
    constructor
    · intro rv hrv
      rcases List.mem_cons.1 hrv with hv | hv
      · rw [hv]; exact har
      · exact h1.vmasWF rv hv
    · refine List.Pairwise.cons ?_ h1.vmasDisj
      intro y hy
      rw [overlaps_comm]
      exact munmapLocked_clears_vmas mm ar y hy
    · exact h1.pmasWF
    · exact h1.pmasDisj
    · intro rp hrp
      rcases h1.contained rp hrp with ⟨rv, hrv, hsup⟩
      exact ⟨rv, List.mem_cons_of_mem _ hrv, hsup⟩
    · intro rv hrv
      rcases List.mem_cons.1 hrv with hv | hv
      · rw [hv]
      · exact h1.vmaPerms rv hv
    · dsimp only
      rw [spanOf_cons]
      dsimp only
      have := h1.usage
      omega
    · exact h1.rss
    · exact h1.maxRss
    · exact h1.privPma

/-- Characterization of the protect transform on vmas. -/
theorem mem_protectVmas {perms : AccessType} {ar : AddrRange}
    {vs : List (AddrRange × vma)} {y : AddrRange × vma}
    (h : y ∈ vs.flatMap fun rv =>
      if decide (rv.1.overlaps ar) then protectVma perms ar rv.1 rv.2 else [rv]) :
    ∃ rv ∈ vs, rv.1.start ≤ y.1.start ∧ y.1.stop ≤ rv.1.stop ∧
      (ar.wf → rv.1.wf → y.1.wf) ∧ y.2.maxPerms = rv.2.maxPerms ∧
      ((y.2.realPerms = rv.2.realPerms ∧ y.2.effectivePerms = rv.2.effectivePerms) ∨
       (y.2.realPerms = perms ∧ y.2.effectivePerms = perms.effective)) := by
  rcases List.mem_flatMap.1 h with ⟨rv, hrv, hy⟩
  refine ⟨rv, hrv, ?_⟩
  split at hy
  case isTrue ho =>
    rw [decide_eq_true_eq] at ho
    unfold protectVma at hy
    rcases List.mem_append.1 hy with hy1 | hy1
    · rcases mem_cutVma hy1 with ⟨hs, hv⟩
      rcases mem_cutOutside_sub hs with ⟨h1, h2, _, _⟩
      rw [hv]
      exact ⟨h1, h2, fun ha hr => mem_cutOutside_wf ha hr hs, rfl, Or.inl ⟨rfl, rfl⟩⟩
    · rw [List.mem_singleton] at hy1
      rw [hy1]
      have hsub := interRange_sub_right ar rv.1
      exact ⟨hsub.1, hsub.2,
        fun ha hr => interRange_wf ha hr (overlaps_comm.1 ho), rfl,
        Or.inr ⟨rfl, rfl⟩⟩
  case isFalse =>
    rw [List.mem_singleton] at hy
    subst hy
    exact ⟨Nat.le_refl _, Nat.le_refl _, fun _ hr => hr, rfl, Or.inl ⟨rfl, rfl⟩⟩

/-- Characterization of the protect transform on pmas. -/
theorem mem_protectPmas {perms : AccessType} {ar : AddrRange}
    {ps : List (AddrRange × pma)} {y : AddrRange × pma}
    (h : y ∈ ps.flatMap fun rp =>
      if decide (rp.1.overlaps ar) then protectPma perms ar rp.1 rp.2 else [rp]) :
    ∃ rp ∈ ps, rp.1.start ≤ y.1.start ∧ y.1.stop ≤ rp.1.stop ∧
      (ar.wf → rp.1.wf → y.1.wf) ∧ y.2.priv = rp.2.priv ∧
      y.2.translatePerms = rp.2.translatePerms ∧ y.2.fileId = rp.2.fileId ∧
      (¬ y.1.overlaps ar ∨ y.1 = interRange ar rp.1) := by
  rcases List.mem_flatMap.1 h with ⟨rp, hrp, hy⟩
  refine ⟨rp, hrp, ?_⟩
  split at hy
  case isTrue ho =>
    rw [decide_eq_true_eq] at ho
    unfold protectPma at hy
    rcases List.mem_append.1 hy with hy1 | hy1
    · rcases mem_cutPma hy1 with ⟨hs, hv⟩
      rcases mem_cutOutside_sub hs with ⟨h1, h2, _, _⟩
      rw [hv]
      exact ⟨h1, h2, fun ha hr => mem_cutOutside_wf ha hr hs, rfl, rfl, rfl,
        Or.inl (mem_cutOutside_sub hs).2.2.2⟩
    · rw [List.mem_singleton] at hy1
      rw [hy1]
      have hsub := interRange_sub_right ar rp.1
      exact ⟨hsub.1, hsub.2,
        fun ha hr => interRange_wf ha hr (overlaps_comm.1 ho), rfl, rfl, rfl,
        Or.inr rfl⟩
  case isFalse hno =>
    rw [List.mem_singleton] at hy
    subst hy
    rw [decide_eq_true_eq] at hno
    exact ⟨Nat.le_refl _, Nat.le_refl _, fun _ hr => hr, rfl, rfl, rfl,
      Or.inl hno⟩

/-- protectVma is internally pairwise disjoint. -/
theorem protectVma_pairwise {perms : AccessType} {ar r : AddrRange} (v : vma)
    (h : ar.start ≤ ar.stop) :
    (protectVma perms ar r v).Pairwise fun a b => ¬ a.1.overlaps b.1 := by
  unfold protectVma
  rw [List.pairwise_append]
  refine ⟨cutVma_pairwise v h, List.pairwise_singleton _ _, ?_⟩
  intro x hx y hy
  rw [List.mem_singleton] at hy
  rcases mem_cutVma hx with ⟨hs, _⟩
  rcases mem_cutOutside_sub hs with ⟨_, _, _, hdis⟩
  rw [hy]
  have hsub := interRange_sub_left ar r
  exact not_overlaps_of_sub (Nat.le_refl _) (Nat.le_refl _) hsub.1 hsub.2 hdis

/-- protectPma is internally pairwise disjoint. -/
theorem protectPma_pairwise {perms : AccessType} {ar r : AddrRange} (p : pma)
    (h : ar.start ≤ ar.stop) :
    (protectPma perms ar r p).Pairwise fun a b => ¬ a.1.overlaps b.1 := by
  unfold protectPma
  rw [List.pairwise_append]
  refine ⟨cutPma_pairwise p h, List.pairwise_singleton _ _, ?_⟩
  intro x hx y hy
  rw [List.mem_singleton] at hy
  rcases mem_cutPma hx with ⟨hs, _⟩
  rcases mem_cutOutside_sub hs with ⟨_, _, _, hdis⟩
  rw [hy]
  have hsub := interRange_sub_left ar r
  exact not_overlaps_of_sub (Nat.le_refl _) (Nat.le_refl _) hsub.1 hsub.2 hdis

/-- protectVma preserves the byte span of its segment. -/
theorem protectVma_span {perms : AccessType} {ar r : AddrRange} (v : vma)
    (har : ar.start ≤ ar.stop) (hr : r.start ≤ r.stop) :
    spanOf (protectVma perms ar r v) = r.length := by
  unfold protectVma
  rw [spanOf_append, spanOf_cutVma, spanOf_cons]
  unfold spanOf
  rw [List.map_nil, List.sum_nil]
  dsimp only
  have := @cutOutside_span ar r har hr
  omega

/-- protectPma preserves the byte span of its segment. -/
theorem protectPma_span {perms : AccessType} {ar r : AddrRange} (p : pma)
    (har : ar.start ≤ ar.stop) (hr : r.start ≤ r.stop) :
    spanOf (protectPma perms ar r p) = r.length := by
  unfold protectPma
  rw [spanOf_append, spanOf_cutPma, spanOf_cons]
  unfold spanOf
  rw [List.map_nil, List.sum_nil]
  dsimp only
  have := @cutOutside_span ar r har hr
  omega

/-- protectVma pieces stay inside their segment. -/
theorem protectVma_bounds {perms : AccessType} {ar r : AddrRange} {v : vma} :
    ∀ y ∈ protectVma perms ar r v, r.start ≤ y.1.start ∧ y.1.stop ≤ r.stop := by
  intro y hy
  unfold protectVma at hy
  rcases List.mem_append.1 hy with hy1 | hy1
  · rcases mem_cutVma hy1 with ⟨hs, _⟩
    rcases mem_cutOutside_sub hs with ⟨h1, h2, _, _⟩
    exact ⟨h1, h2⟩
  · rw [List.mem_singleton] at hy1
    rw [hy1]
    exact interRange_sub_right ar r

/-- protectPma pieces stay inside their segment. -/
theorem protectPma_bounds {perms : AccessType} {ar r : AddrRange} {p : pma} :
    ∀ y ∈ protectPma perms ar r p, r.start ≤ y.1.start ∧ y.1.stop ≤ r.stop := by
  intro y hy
  unfold protectPma at hy
  rcases List.mem_append.1 hy with hy1 | hy1
  · rcases mem_cutPma hy1 with ⟨hs, _⟩
    rcases mem_cutOutside_sub hs with ⟨h1, h2, _, _⟩
    exact ⟨h1, h2⟩
  · rw [List.mem_singleton] at hy1
    rw [hy1]
    exact interRange_sub_right ar r

/-- spanOf is preserved by a flatMap whose pieces keep each segment's
length. -/
theorem spanOf_flatMap_eq {α β : Type} (l : List (AddrRange × α))
    (f : AddrRange × α → List (AddrRange × β))
    (h : ∀ x ∈ l, spanOf (f x) = x.1.length) :
    spanOf (l.flatMap f) = spanOf l := by
  have := spanOf_flatMap l f (fun _ => 0) (by intro x hx; simp [h x hx])
  simpa using this

/-- mprotectOp preserves the mm invariants. -/
theorem inv_mprotectOp {mm mm2 : MemoryManager} {ar : AddrRange}
    {perms : AccessType} (h : MMInv mm)
    (heq : mm.mprotectOp ar perms = .ok mm2) : MMInv mm2 := by
  unfold MemoryManager.mprotectOp at heq
  split at heq
  case isFalse => cases heq
  case isTrue har =>
    split at heq
    case isFalse => cases heq
    case isTrue =>
      rw [Except.ok.injEq] at heq
      subst heq
      constructor
      · intro y hy
        rcases mem_protectVmas hy with ⟨rv, hrv, _, _, hwf, _, _⟩
        exact hwf har (h.vmasWF rv hrv)
      · refine pairwiseDisjoint_flatMap _ _ ?_ ?_ h.vmasDisj
        · intro x hx y hy
          split at hy
          · exact protectVma_bounds y hy
          · rw [List.mem_singleton] at hy
            subst hy
            exact ⟨Nat.le_refl _, Nat.le_refl _⟩
        · intro x hx
          split
          · exact protectVma_pairwise _ (Nat.le_of_lt har.1)
          · simp
      · intro y hy
        rcases mem_protectPmas hy with ⟨rp, hrp, _, _, hwf, _, _⟩
        exact hwf har (h.pmasWF rp hrp)
      · refine pairwiseDisjoint_flatMap _ _ ?_ ?_ h.pmasDisj
        · intro x hx y hy
          split at hy
          · exact protectPma_bounds y hy
          · rw [List.mem_singleton] at hy
            subst hy
            exact ⟨Nat.le_refl _, Nat.le_refl _⟩
        · intro x hx
          split
          · exact protectPma_pairwise _ (Nat.le_of_lt har.1)
          · simp
      · intro y hy
        dsimp only at hy ⊢
        rcases mem_protectPmas hy with ⟨rp, hrp, hb1, hb2, hwf, _, _, _, hcase⟩
        rcases h.contained rp hrp with ⟨rv, hrv, hsup⟩
        have hywf : y.1.wf := hwf har (h.pmasWF rp hrp)
        rcases hcase with hdis | hint
        · by_cases ho : rv.1.overlaps ar
          · rcases exists_cutOutside_superset har.1 hywf.1
              (Nat.le_trans hsup.1 hb1) (Nat.le_trans hb2 hsup.2) hdis with
              ⟨t, ht, htsup⟩
            refine ⟨(t, { rv.2 with off := rv.2.off + (t.start - rv.1.start) }),
              List.mem_flatMap.2 ⟨rv, hrv, ?_⟩, htsup⟩
            rw [if_pos (by simpa using ho)]
            unfold protectVma
            exact List.mem_append.2 (Or.inl (List.mem_map.2 ⟨t, ht, rfl⟩))
          · refine ⟨rv, List.mem_flatMap.2 ⟨rv, hrv, ?_⟩,
              isSupersetOf_of_sub hsup hb1 hb2⟩
            rw [if_neg (by simpa using ho)]
            exact List.mem_singleton.2 rfl
        · have hrpo : rp.1.overlaps ar := by
            have h1 := interRange_sub_left ar rp.1
            have h2 := interRange_sub_right ar rp.1
            unfold AddrRange.overlaps at *
            rw [hint] at hywf
            unfold interRange AddrRange.wf at hywf
            dsimp only at hywf
            omega
          have hrvo : rv.1.overlaps ar := by
            unfold AddrRange.overlaps AddrRange.isSupersetOf at *
            omega
          refine ⟨(interRange ar rv.1,
            { rv.2 with off := rv.2.off + ((interRange ar rv.1).start - rv.1.start),
                        realPerms := perms, effectivePerms := perms.effective }),
            List.mem_flatMap.2 ⟨rv, hrv, ?_⟩, ?_⟩
          · rw [if_pos (by simpa using hrvo)]
            unfold protectVma
            exact List.mem_append.2 (Or.inr (List.mem_singleton.2 rfl))
          · rw [hint]
            exact interRange_mono hsup.1 hsup.2
      · intro y hy
        rcases mem_protectVmas hy with ⟨rv, hrv, _, _, _, _, hcase⟩
        rcases hcase with ⟨hre, hef⟩ | ⟨hre, hef⟩
        · rw [hre, hef]
          exact h.vmaPerms rv hrv
        · rw [hre, hef]
      · dsimp only
        refine Eq.trans h.usage ?_
        refine (spanOf_flatMap_eq _ _ ?_).symm
        intro x hx
        split
        · exact protectVma_span _ (Nat.le_of_lt har.1)
            (Nat.le_of_lt (h.vmasWF x hx).1)
        · rw [spanOf_cons]
          unfold spanOf
          simp
      · dsimp only
        refine Eq.trans h.rss ?_
        refine (spanOf_flatMap_eq _ _ ?_).symm
        intro x hx
        split
        · exact protectPma_span _ (Nat.le_of_lt har.1)
            (Nat.le_of_lt (h.pmasWF x hx).1)
        · rw [spanOf_cons]
          unfold spanOf
          simp
      · exact h.maxRss
      · intro y hy hp
        rcases mem_protectPmas hy with ⟨rp, hrp, _, _, _, hpriv, htp, hfid, _⟩
        rcases h.privPma rp hrp (hpriv ▸ hp) with ⟨ht, hf⟩
        exact ⟨htp.trans ht, hfid.trans hf⟩

/-- Pairwise disjointness for a flatMap of raw ranges. -/
theorem pairwise_flatMap_ranges (l : List AddrRange) (f : AddrRange → List AddrRange)
    (hsub : ∀ x ∈ l, ∀ y ∈ f x, x.start ≤ y.start ∧ y.stop ≤ x.stop)
    (hin : ∀ x ∈ l, (f x).Pairwise fun a b => ¬ a.overlaps b)
    (hl : l.Pairwise fun a b => ¬ a.overlaps b) :
    (l.flatMap f).Pairwise fun a b => ¬ a.overlaps b := by
  induction l with
  | nil => simp
  | cons a l ih =>
    rw [List.flatMap_cons, List.pairwise_append]
    rcases List.pairwise_cons.1 hl with ⟨ha, hl1⟩
    refine ⟨hin a (List.mem_cons_self a l), ?_, ?_⟩
    · exact ih (fun x hx => hsub x (List.mem_cons_of_mem a hx))
        (fun x hx => hin x (List.mem_cons_of_mem a hx)) hl1
    · intro y hy z hz
      rcases List.mem_flatMap.1 hz with ⟨b, hb, hzb⟩
      rcases hsub a (List.mem_cons_self a l) y hy with ⟨hy1, hy2⟩
      rcases hsub b (List.mem_cons_of_mem a hb) z hzb with ⟨hz1, hz2⟩
      exact not_overlaps_of_sub hy1 hy2 hz1 hz2 (ha b hb)

/-- Every gap lies inside the queried range and is well-formed. -/
theorem mem_gapsIn {ps : List (AddrRange × pma)} :
    ∀ a : AddrRange, ∀ g ∈ gapsIn a ps,
      a.start ≤ g.start ∧ g.stop ≤ a.stop ∧
        (a.wf → (∀ rp ∈ ps, rp.1.wf) → g.wf) := by
  induction ps with
  | nil =>
    intro a g hg
    rw [gapsIn, List.mem_singleton] at hg
    subst hg
    exact ⟨Nat.le_refl _, Nat.le_refl _, fun ha _ => ha⟩
  | cons rp rest ih =>
    intro a g hg
    rw [gapsIn] at hg
    rcases List.mem_flatMap.1 hg with ⟨t, ht, hgt⟩
    rcases mem_cutOutside_sub ht with ⟨h1, h2, h3, _⟩
    rcases ih t g hgt with ⟨h4, h5, h6⟩
    refine ⟨Nat.le_trans h1 h4, Nat.le_trans h5 h2, ?_⟩
    intro ha hps
    refine h6 (mem_cutOutside_wf (hps rp (List.mem_cons_self rp rest)) ha ht) ?_
    intro rq hrq
    exact hps rq (List.mem_cons_of_mem rp hrq)

/-- Gaps are disjoint from every listed pma. -/
theorem gapsIn_disjoint {ps : List (AddrRange × pma)} :
    ∀ a : AddrRange, ∀ g ∈ gapsIn a ps, ∀ rp ∈ ps, ¬ g.overlaps rp.1 := by
  induction ps with
  | nil => intro a g hg rp hrp; cases hrp
  | cons rq rest ih =>
    intro a g hg rp hrp
    rw [gapsIn] at hg
    rcases List.mem_flatMap.1 hg with ⟨t, ht, hgt⟩
    rcases mem_cutOutside_sub ht with ⟨h1, h2, h3, hdis⟩
    rcases mem_gapsIn t g hgt with ⟨h4, h5, _⟩
    rcases List.mem_cons.1 hrp with hv | hv
    · subst hv
      exact not_overlaps_of_sub h4 h5 (Nat.le_refl _) (Nat.le_refl _) hdis
    · exact ih t g hgt rp hv

/-- Gaps are pairwise disjoint. -/
theorem gapsIn_pairwise {ps : List (AddrRange × pma)}
    (hwf : ∀ rp ∈ ps, rp.1.start ≤ rp.1.stop) :
    ∀ a : AddrRange, (gapsIn a ps).Pairwise fun g1 g2 => ¬ g1.overlaps g2 := by
  induction ps with
  | nil =>
    intro a
    rw [gapsIn]
    simp
  | cons rp rest ih =>
    intro a
    rw [gapsIn]
    refine pairwise_flatMap_ranges _ _ ?_ ?_
      (cutOutside_pairwise (hwf rp (List.mem_cons_self rp rest)))
    · intro t ht g hg
      rcases mem_gapsIn t g hg with ⟨h1, h2, _⟩
      exact ⟨h1, h2⟩
    · intro t ht
      exact ih (fun rq hrq => hwf rq (List.mem_cons_of_mem rp hrq)) t

/-- Characterization of the break-COW pass output: each entry comes from a
listed pma, shrunk into its range, either carrying the original backing or
being a fresh private replacement. -/
theorem mem_breakCowAll {ar : AddrRange} {v : vma} {acc : AccessType}
    {l : List (AddrRange × pma)} :
    ∀ off : Nat, ∀ s : Store, ∀ y ∈ (breakCowAll ar v acc l off s).1,
      ∃ x ∈ l, x.1.start ≤ y.1.start ∧ y.1.stop ≤ x.1.stop ∧
        (ar.wf → x.1.wf → y.1.wf) ∧
        ((y.2.priv = x.2.priv ∧ y.2.translatePerms = x.2.translatePerms ∧
          y.2.fileId = x.2.fileId) ∨
         (y.2.priv = true ∧ y.2.translatePerms = AccessType.anyAccess ∧
          y.2.fileId = 0 ∧ y.2.effectivePerms = v.effectivePerms)) := by
  induction l with
  | nil => intro off s y hy; rw [breakCowAll] at hy; cases hy
  | cons x rest ih =>
    rcases x with ⟨r, p⟩
    intro off s y hy
    rw [breakCowAll] at hy
    split at hy
    case isTrue hc =>
      rcases List.mem_append.1 hy with hy1 | hy1
      · rcases List.mem_append.1 hy1 with hy2 | hy2
        · rcases mem_cutPma hy2 with ⟨hs, hv⟩
          rcases mem_cutOutside_sub hs with ⟨h1, h2, _, _⟩
          refine ⟨(r, p), List.mem_cons_self _ _, h1, h2,
            fun ha hr => mem_cutOutside_wf ha hr hs, ?_⟩
          rw [hv]
          exact Or.inl ⟨rfl, rfl, rfl⟩
        · rw [List.mem_singleton] at hy2
          rw [hy2]
          have hsub := interRange_sub_right ar r
          refine ⟨(r, p), List.mem_cons_self _ _, hsub.1, hsub.2, ?_,
            Or.inr ⟨rfl, rfl, rfl, rfl⟩⟩
          intro ha hr
          refine interRange_wf ha hr ?_
          rw [overlaps_comm]
          simp only [Bool.and_eq_true, decide_eq_true_eq] at hc
          exact hc.1.1.1
      · rcases ih (off + (interRange ar r).length)
          (copyRange s off p.fileId (p.off + ((interRange ar r).start - r.start))
            (interRange ar r).length) y hy1 with ⟨x, hx, hrest⟩
        exact ⟨x, List.mem_cons_of_mem _ hx, hrest⟩
    case isFalse =>
      rcases List.mem_cons.1 hy with hy1 | hy1
      · subst hy1
        exact ⟨(r, p), List.mem_cons_self _ _, Nat.le_refl _, Nat.le_refl _,
          fun _ hr => hr, Or.inl ⟨rfl, rfl, rfl⟩⟩
      · rcases ih off s y hy1 with ⟨x, hx, hrest⟩
        exact ⟨x, List.mem_cons_of_mem _ hx, hrest⟩

/-- The break-COW pass preserves pairwise disjointness. -/
theorem breakCowAll_disjoint {ar : AddrRange} {v : vma} {acc : AccessType}
    {l : List (AddrRange × pma)} (har : ar.start ≤ ar.stop)
    (hl : pairwiseDisjoint l) :
    ∀ off : Nat, ∀ s : Store, pairwiseDisjoint (breakCowAll ar v acc l off s).1 := by
  unfold pairwiseDisjoint at *
  induction l with
  | nil => intro off s; rw [breakCowAll]; simp
  | cons x rest ih =>
    rcases x with ⟨r, p⟩
    rcases List.pairwise_cons.1 hl with ⟨hhead, hl1⟩
    intro off s
    have hcross : ∀ off1 : Nat, ∀ s1 : Store,
        ∀ z ∈ (breakCowAll ar v acc rest off1 s1).1, ∀ t : AddrRange,
        r.start ≤ t.start → t.stop ≤ r.stop → ¬ t.overlaps z.1 := by
      intro off1 s1 z hz t h1 h2
      rcases mem_breakCowAll off1 s1 z hz with ⟨x, hx, hz1, hz2, _, _⟩
      exact not_overlaps_of_sub h1 h2 hz1 hz2 (hhead x hx)
    rw [breakCowAll]
    split
    case isTrue hc =>
      dsimp only
      rw [List.append_assoc, List.pairwise_append]
      refine ⟨cutPma_pairwise p har, ?_, ?_⟩
      · rw [List.singleton_append, List.pairwise_cons]
        constructor
        · intro z hz
          have hsub := interRange_sub_right ar r
          exact hcross _ _ z hz _ hsub.1 hsub.2
        · exact ih hl1 (off + (interRange ar r).length) _
      · intro y hy z hz
        rcases mem_cutPma hy with ⟨hs, _⟩
        rcases mem_cutOutside_sub hs with ⟨h1, h2, _, hdis⟩
        rcases List.mem_cons.1 hz with hz1 | hz1
        · rw [hz1]
          have hsub := interRange_sub_left ar r
          exact not_overlaps_of_sub (Nat.le_refl _) (Nat.le_refl _)
            hsub.1 hsub.2 hdis
        · exact hcross _ _ z hz1 y.1 h1 h2
    case isFalse =>
      dsimp only
      rw [List.pairwise_cons]
      refine ⟨fun z hz => hcross _ _ z hz r (Nat.le_refl _) (Nat.le_refl _), ?_⟩
      exact ih hl1 off s

/-- The break-COW pass preserves the byte span of the pma map. -/
theorem breakCowAll_span {ar : AddrRange} {v : vma} {acc : AccessType}
    {l : List (AddrRange × pma)} (har : ar.start ≤ ar.stop)
    (hwf : ∀ x ∈ l, x.1.start ≤ x.1.stop) :
    ∀ off : Nat, ∀ s : Store,
      spanOf (breakCowAll ar v acc l off s).1 = spanOf l := by
  induction l with
  | nil => intro off s; rw [breakCowAll]
  | cons x rest ih =>
    rcases x with ⟨r, p⟩
    intro off s
    have hr : r.start ≤ r.stop := hwf (r, p) (List.mem_cons_self _ _)
    have ih1 := ih fun z hz => hwf z (List.mem_cons_of_mem _ hz)
    rw [breakCowAll]
    split
    case isTrue hc =>
      dsimp only
      rw [spanOf_append, spanOf_append, spanOf_cutPma, spanOf_cons, spanOf_cons,
        ih1]
      unfold spanOf
      rw [List.map_nil, List.sum_nil]
      have := @cutOutside_span ar r har hr
      dsimp only
      omega
    case isFalse =>
      dsimp only
      rw [spanOf_cons, spanOf_cons, ih1]

/-- The break-COW pass is the identity when no pma needs breaking. -/
theorem breakCowAll_id {ar : AddrRange} {v : vma} {acc : AccessType}
    {l : List (AddrRange × pma)}
    (h : ∀ x ∈ l, (decide (x.1.overlaps ar) && acc.write && v.priv
      && !x.2.priv) = false) :
    ∀ off : Nat, ∀ s : Store, breakCowAll ar v acc l off s = (l, off, s) := by
  induction l with
  | nil => intro off s; rw [breakCowAll]
  | cons x rest ih =>
    rcases x with ⟨r, p⟩
    intro off s
    rw [breakCowAll]
    split
    case isTrue hc =>
      exfalso
      have := h (r, p) (List.mem_cons_self _ _)
      rw [this] at hc
      cases hc
    case isFalse =>
      dsimp only
      rw [ih (fun z hz => h z (List.mem_cons_of_mem _ hz)) off s]

/-- The break-COW pass passes over untouched leading entries unchanged. -/
theorem breakCowAll_untouchedPre {ar : AddrRange} {v : vma} {acc : AccessType}
    {pre rest : List (AddrRange × pma)}
    (h : ∀ x ∈ pre, decide (x.1.overlaps ar) = false) :
    ∀ off : Nat, ∀ s : Store,
      breakCowAll ar v acc (pre ++ rest) off s =
        (pre ++ (breakCowAll ar v acc rest off s).1,
         (breakCowAll ar v acc rest off s).2) := by
  induction pre with
  | nil => intro off s; rw [List.nil_append, List.nil_append]
  | cons x pre1 ih =>
    rcases x with ⟨r, p⟩
    intro off s
    rw [List.cons_append, breakCowAll]
    split
    case isTrue hc =>
      exfalso
      have := h (r, p) (List.mem_cons_self _ _)
      rw [this] at hc
      simp at hc
    case isFalse =>
      dsimp only
      rw [ih (fun z hz => h z (List.mem_cons_of_mem _ hz)) off s,
        List.cons_append]

/-- Characterization of the population pass output: each new pma sits
inside its gap, is well-formed when the gap is, and is private only with
full translate permissions backed by the memory file. -/
theorem mem_populateGaps {objs : Nat → BackingObject} {vr : AddrRange}
    {v : vma} {ar : AddrRange} {gs : List AddrRange} :
    ∀ off : Nat, ∀ s : Store, ∀ y ∈ (populateGaps objs vr v ar gs off s).1,
      ∃ g ∈ gs, g.start ≤ y.1.start ∧ y.1.stop ≤ g.stop ∧
        (ar.wf → g.wf → g.overlaps ar → y.1.wf) ∧
        (y.2.priv = true → y.2.translatePerms = AccessType.anyAccess ∧
          y.2.fileId = 0) := by
  induction gs with
  | nil => intro off s y hy; rw [populateGaps] at hy; cases hy
  | cons g rest ih =>
    intro off s y hy
    rw [populateGaps] at hy
    rcases hm : v.mappable with _ | objId
    all_goals rw [hm] at hy
    · rcases List.mem_cons.1 hy with hy1 | hy1
      · subst hy1
        have hsub := interRange_sub_left g ar
        refine ⟨g, List.mem_cons_self _ _, hsub.1, hsub.2, ?_, fun _ => ⟨rfl, rfl⟩⟩
        intro har hg ho
        exact interRange_wf hg har ho
      · rcases ih _ _ y hy1 with ⟨g1, hg1, hrest⟩
        exact ⟨g1, List.mem_cons_of_mem _ hg1, hrest⟩
    · rcases List.mem_cons.1 hy with hy1 | hy1
      · subst hy1
        have hsub := interRange_sub_left g ar
        have hsub2 := interRange_sub_right g ar
        refine ⟨g, List.mem_cons_self _ _, ?_, ?_, ?_, ?_⟩
        · exact hsub.1
        · exact Nat.min_le_right _ _
        · intro har hg ho
          have hiwf := interRange_wf hg har ho
          unfold AddrRange.wf at *
          simp only [interRange, BackingObject.translate, pageAligned_iff,
            pageSize] at *
          omega
        · intro hp
          simp at hp
      · rcases ih _ _ y hy1 with ⟨g1, hg1, hrest⟩
        exact ⟨g1, List.mem_cons_of_mem _ hg1, hrest⟩

/-- The population pass adds exactly its reported resident bytes. -/
theorem populateGaps_span {objs : Nat → BackingObject} {vr : AddrRange}
    {v : vma} {ar : AddrRange} {gs : List AddrRange} :
    ∀ off : Nat, ∀ s : Store,
      spanOf (populateGaps objs vr v ar gs off s).1
        = (populateGaps objs vr v ar gs off s).2.2.2 := by
  induction gs with
  | nil => intro off s; rw [populateGaps]; rfl
  | cons g rest ih =>
    intro off s
    rw [populateGaps]
    rcases hm : v.mappable with _ | objId
    · dsimp only
      rw [spanOf_cons, ih]
    · dsimp only
      rw [spanOf_cons, ih]

/-- The population pass output is pairwise disjoint and disjoint from any
list the gaps avoid. -/
theorem populateGaps_disjoint {objs : Nat → BackingObject} {vr : AddrRange}
    {v : vma} {ar : AddrRange} {gs : List AddrRange}
    (hgs : gs.Pairwise fun g1 g2 => ¬ g1.overlaps g2) :
    ∀ off : Nat, ∀ s : Store,
      pairwiseDisjoint (populateGaps objs vr v ar gs off s).1 := by
  unfold pairwiseDisjoint
  induction gs with
  | nil => intro off s; rw [populateGaps]; simp
  | cons g rest ih =>
    rcases List.pairwise_cons.1 hgs with ⟨hhead, hgs1⟩
    intro off s
    have hcross : ∀ off1 : Nat, ∀ s1 : Store,
        ∀ z ∈ (populateGaps objs vr v ar rest off1 s1).1, ∀ t : AddrRange,
        g.start ≤ t.start → t.stop ≤ g.stop → ¬ t.overlaps z.1 := by
      intro off1 s1 z hz t h1 h2
      rcases mem_populateGaps off1 s1 z hz with ⟨g1, hg1, hz1, hz2, _, _⟩
      exact not_overlaps_of_sub h1 h2 hz1 hz2 (hhead g1 hg1)
    rw [populateGaps]
    rcases hm : v.mappable with _ | objId
    · dsimp only
      rw [List.pairwise_cons]
      have hsub := interRange_sub_left g ar
      exact ⟨fun z hz => hcross _ _ z hz _ hsub.1 hsub.2, ih hgs1 _ _⟩
    · dsimp only
      rw [List.pairwise_cons]
      refine ⟨?_, ih hgs1 _ _⟩
      intro z hz
      refine hcross _ _ z hz _ ?_ ?_
      · exact (interRange_sub_left g ar).1
      · exact Nat.min_le_right _ _

/-- A successful findCovering returns a listed entry covering the range. -/
theorem findCovering_mem {α : Type} {l : List (AddrRange × α)} {ar : AddrRange}
    {rv : AddrRange × α} (h : findCovering l ar = some rv) :
    rv ∈ l ∧ rv.1.isSupersetOf ar := by
  unfold findCovering at h
  refine ⟨List.mem_of_find?_eq_some h, ?_⟩
  have := List.find?_some h
  rwa [decide_eq_true_eq] at this

/-- resolveOp preserves the mm invariants. -/
theorem inv_resolveOp {w w2 : World} {ar : AddrRange} {acc : AccessType}
    {ig : Bool} (h : MMInv w.mm) (heq : w.resolveOp ar acc ig = .ok w2) :
    MMInv w2.mm := by
  unfold World.resolveOp at heq
  split at heq
  case isFalse => cases heq
  case isTrue har =>
    split at heq
    case h_1 => cases heq
    case h_2 rv hfind =>
      split at heq
      case isFalse => cases heq
      case isTrue hper =>
        rw [Except.ok.injEq] at heq
        subst heq
        rcases findCovering_mem hfind with ⟨hrvmem, hrvsup⟩
        have hrvwf : rv.1.wf := h.vmasWF rv hrvmem
        have hbwf : ∀ y ∈ (breakCowAll ar rv.2 acc w.mm.pmas
            w.mm.nextPrivateOff w.store).1, y.1.wf := by
          intro y hy
          rcases mem_breakCowAll _ _ y hy with ⟨x, hx, _, _, hwf, _⟩
          exact hwf har (h.pmasWF x hx)
        constructor
        · exact h.vmasWF
        · exact h.vmasDisj
        · intro y hy
          dsimp only at hy
          rcases List.mem_append.1 hy with hy1 | hy1
          · exact hbwf y hy1
          · rcases mem_populateGaps _ _ y hy1 with ⟨g, hg, _, _, hwf, _⟩
            rcases List.mem_filter.1 hg with ⟨hg1, hg2⟩
            rcases mem_gapsIn _ g hg1 with ⟨_, _, hgwf⟩
            exact hwf har (hgwf hrvwf hbwf) (by rwa [decide_eq_true_eq] at hg2)
        · dsimp only
          unfold pairwiseDisjoint
          rw [List.pairwise_append]
          refine ⟨breakCowAll_disjoint (Nat.le_of_lt har.1) h.pmasDisj _ _,
            populateGaps_disjoint ?_ _ _, ?_⟩
          · refine List.Pairwise.sublist (List.filter_sublist _) ?_
            exact gapsIn_pairwise (fun rp hrp => Nat.le_of_lt (hbwf rp hrp).1) _
          · intro y hy z hz
            rcases mem_populateGaps _ _ z hz with ⟨g, hg, hz1, hz2, _, _⟩
            rcases List.mem_filter.1 hg with ⟨hg1, _⟩
            have hdis := gapsIn_disjoint _ g hg1 y hy
            rw [overlaps_comm] at hdis
            exact not_overlaps_of_sub (Nat.le_refl _) (Nat.le_refl _) hz1 hz2 hdis
        · intro y hy
          dsimp only at hy ⊢
          rcases List.mem_append.1 hy with hy1 | hy1
          · rcases mem_breakCowAll _ _ y hy1 with ⟨x, hx, hb1, hb2, _, _⟩
            rcases h.contained x hx with ⟨rv2, hrv2, hsup2⟩
            exact ⟨rv2, hrv2, isSupersetOf_of_sub hsup2 hb1 hb2⟩
          · rcases mem_populateGaps _ _ y hy1 with ⟨g, hg, hz1, hz2, _, _⟩
            rcases List.mem_filter.1 hg with ⟨hg1, _⟩
            rcases mem_gapsIn _ g hg1 with ⟨hg2, hg3, _⟩
            refine ⟨rv, hrvmem, ?_⟩
            unfold AddrRange.isSupersetOf
            omega
        · exact h.vmaPerms
        · exact h.usage
        · dsimp only
          rw [spanOf_append,
            breakCowAll_span (Nat.le_of_lt har.1)
              (fun x hx => Nat.le_of_lt (h.pmasWF x hx).1) _ _,
            populateGaps_span _ _]
          have := h.rss
          omega
        · exact Nat.le_max_right _ _
        · intro y hy hp
          dsimp only at hy
          rcases List.mem_append.1 hy with hy1 | hy1
          · rcases mem_breakCowAll _ _ y hy1 with ⟨x, hx, _, _, _, hval⟩
            rcases hval with ⟨h1, h2, h3⟩ | ⟨h1, h2, h3, _⟩
            · rcases h.privPma x hx (h1 ▸ hp) with ⟨ht, hf⟩
              exact ⟨h2.trans ht, h3.trans hf⟩
            · exact ⟨h2, h3⟩
          · rcases mem_populateGaps _ _ y hy1 with ⟨g, hg, _, _, _, hpriv⟩
            exact hpriv hp

/-- invalidateOp preserves the mm invariants. -/
theorem inv_invalidateOp {mm : MemoryManager} {ar : AddrRange}
    {opts : InvalidateOpts} (har : ar.wf) (h : MMInv mm) :
    MMInv (mm.invalidateOp ar opts) := by
  unfold MemoryManager.invalidateOp
  split
  · exact ⟨h.vmasWF, h.vmasDisj, h.pmasWF, h.pmasDisj, h.contained, h.vmaPerms,
      h.usage, h.rss, h.maxRss, h.privPma⟩
  · exact inv_invalidateLocked har h

/-- activate preserves the mm invariants. -/
theorem inv_activate {mm : MemoryManager} (h : MMInv mm) : MMInv mm.activate :=
  ⟨h.vmasWF, h.vmasDisj, h.pmasWF, h.pmasDisj, h.contained, h.vmaPerms,
   h.usage, h.rss, h.maxRss, h.privPma⟩

/-- Every step of the operational model preserves the mm invariants. -/
theorem inv_step {w : World} (op : MmOp) (h : MMInv w.mm) :
    MMInv (w.step op).mm := by
  cases op with
  | mmapF a len perms maxP mid off priv =>
    unfold World.step
    dsimp only
    rcases hres : w.mm.mmapOp ⟨a, a + len⟩ perms maxP mid off priv with mm2 | mm2
    · exact h
    · exact inv_mmapOp h hres
  | munmapF a len =>
    unfold World.step
    dsimp only
    rcases hres : w.mm.munmapOp ⟨a, a + len⟩ with mm2 | mm2
    · exact h
    · exact inv_munmapOp h hres
  | mprotectF a len perms =>
    unfold World.step
    dsimp only
    rcases hres : w.mm.mprotectOp ⟨a, a + len⟩ perms with mm2 | mm2
    · exact h
    · exact inv_mprotectOp h hres
  | resolveF a len acc ig =>
    unfold World.step
    dsimp only
    rcases hres : w.resolveOp ⟨a, a + len⟩ acc ig with w2 | w2
    · exact h
    · exact inv_resolveOp h hres
  | invalidateF a len invPriv =>
    unfold World.step
    dsimp only
    split
    · exact inv_invalidateOp (by assumption) h
    · exact h
  | activateF => exact inv_activate h

/-- Running any operation sequence preserves the mm invariants. -/
theorem inv_run {w : World} (ops : List MmOp) (h : MMInv w.mm) :
    MMInv (w.run ops).mm := by
  unfold World.run
  induction ops generalizing w with
  | nil => exact h
  | cons op rest ih => exact ih (inv_step op h)

/-- The initial MemoryManager satisfies the invariants. -/
theorem inv_init : MMInv initMM := by
  constructor <;> simp [initMM, pairwiseDisjoint, spanOf]

/-- Every reachable state satisfies the mm invariants. -/
theorem reachable_inv {w : World} (h : Reachable w) : MMInv w.mm := by
  rcases h with ⟨objs, ops, hw⟩
  rw [hw]
  exact inv_run ops inv_init

/-- During capture, MM.Invalidate only records its arguments. -/
theorem invalidateOp_capture {mm : MemoryManager} {ar : AddrRange}
    {opts : InvalidateOpts} (h : mm.captureInvalidations = true) :
    mm.invalidateOp ar opts
      = { mm with capturedInvalidations :=
            mm.capturedInvalidations ++ [⟨ar, opts⟩] } := by
  unfold MemoryManager.invalidateOp
  rw [if_pos h]

/-- During capture, delivering a list of invalidations only extends the
pending list; the pma map is untouched. -/
theorem deliverInvs_capture {l : List invalidateArgs} :
    ∀ mm : MemoryManager, mm.captureInvalidations = true →
      deliverInvs mm l
        = { mm with capturedInvalidations := mm.capturedInvalidations ++ l } := by
  induction l with
  | nil =>
    intro mm h
    unfold deliverInvs
    rw [List.foldl_nil, List.append_nil]
  | cons a rest ih =>
    intro mm h
    unfold deliverInvs at *
    rw [List.foldl_cons, invalidateOp_capture h,
      ih ({ mm with capturedInvalidations :=
        mm.capturedInvalidations ++ [⟨a.ar, a.opts⟩] }) h]
    rw [List.append_assoc]
    rfl

/-- applyAllInvs acts on the pma map as the fold of invalidatePmas. -/
theorem applyAllInvs_pmas (l : List invalidateArgs) :
    ∀ mm : MemoryManager, (mm.applyAllInvs l).pmas
      = l.foldl (fun ps a3 => invalidatePmas a3.ar a3.opts ps) mm.pmas := by
  induction l with
  | nil => intro mm; rfl
  | cons a rest ih =>
    intro mm
    unfold MemoryManager.applyAllInvs at *
    rw [List.foldl_cons, List.foldl_cons, ih, invalidateLocked_pmas]

/-- Invalidation never makes a pma cover an address it did not cover. -/
theorem invalidatePmas_keeps_noCover {ar : AddrRange} {opts : InvalidateOpts}
    {ps : List (AddrRange × pma)} {a : Nat}
    (h : ∀ rp ∈ ps, ¬ rp.1.containsAddr a) :
    ∀ y ∈ invalidatePmas ar opts ps, ¬ y.1.containsAddr a := by
  intro y hy
  rcases mem_invalidatePmas hy with ⟨rp, hrp, h1, h2, _⟩
  have := h rp hrp
  unfold AddrRange.containsAddr at *
  omega

/-- After an invalidation targeting private pmas as well, no pma covers any
address of the invalidated range. -/
theorem invalidatePmas_noCover {ar : AddrRange} {ps : List (AddrRange × pma)}
    {a : Nat} (ha : ar.containsAddr a) :
    ∀ y ∈ invalidatePmas ar ⟨true⟩ ps, ¬ y.1.containsAddr a := by
  intro y hy hc
  have hdis := invalidatePmas_clears y hy
  unfold AddrRange.containsAddr at *
  unfold AddrRange.overlaps at hdis
  omega

/-- Replaying a list of invalidations containing one that tears down a
given address (private pmas included) leaves that address uncovered. -/
theorem foldl_invalidatePmas_noCover {arg : invalidateArgs}
    {l : List invalidateArgs} {a : Nat} (hmem : arg ∈ l)
    (hp : arg.opts.invalidatePrivate = true) (ha : arg.ar.containsAddr a) :
    ∀ ps : List (AddrRange × pma),
      ∀ y ∈ l.foldl (fun ps a3 => invalidatePmas a3.ar a3.opts ps) ps,
        ¬ y.1.containsAddr a := by
  have hkeep : ∀ l2 : List invalidateArgs, ∀ ps : List (AddrRange × pma),
      (∀ rp ∈ ps, ¬ rp.1.containsAddr a) →
      ∀ y ∈ l2.foldl (fun ps a3 => invalidatePmas a3.ar a3.opts ps) ps,
        ¬ y.1.containsAddr a := by
    intro l2
    induction l2 with
    | nil => intro ps h y hy; exact h y hy
    | cons b rest ih =>
      intro ps h y hy
      rw [List.foldl_cons] at hy
      exact ih _ (invalidatePmas_keeps_noCover h) y hy
  rcases List.append_of_mem hmem with ⟨l1, l2, hl⟩
  subst hl
  intro ps y hy
  rw [List.foldl_append, List.foldl_cons] at hy
  have harg : ∀ z ∈ invalidatePmas arg.ar arg.opts
      (l1.foldl (fun ps a3 => invalidatePmas a3.ar a3.opts ps) ps),
      ¬ z.1.containsAddr a := by
    intro z hz
    have hopts : arg.opts = InvalidateOpts.mk true := by
      have he : arg.opts = InvalidateOpts.mk arg.opts.invalidatePrivate := rfl
      rw [he, hp]
    rw [hopts] at hz
    exact invalidatePmas_noCover ha z hz
  exact hkeep l2 _ harg y hy

/-- interRange collapses to its first argument when the second covers it. -/
theorem interRange_eq_left {x y : AddrRange} (h1 : y.start ≤ x.start)
    (h2 : x.stop ≤ y.stop) : interRange x y = x := by
  unfold interRange
  have ha : max x.start y.start = x.start := by omega
  have hb : min x.stop y.stop = x.stop := by omega
  rw [ha, hb]

/-- interRange collapses to its second argument when the first covers it. -/
theorem interRange_eq_right {x y : AddrRange} (h1 : x.start ≤ y.start)
    (h2 : y.stop ≤ x.stop) : interRange x y = y := by
  unfold interRange
  have ha : max x.start y.start = y.start := by omega
  have hb : min x.stop y.stop = y.stop := by omega
  rw [ha, hb]

/-- find? passes over leading entries on which the predicate fails. -/
theorem find?_append_of_none {α : Type} {p : α → Bool} {l1 l2 : List α}
    (h : ∀ x ∈ l1, p x = false) :
    List.find? p (l1 ++ l2) = List.find? p l2 := by
  induction l1 with
  | nil => rw [List.nil_append]
  | cons x l ih =>
    rw [List.cons_append, List.find?_cons,
      h x (List.mem_cons_self _ _)]
    exact ih fun z hz => h z (List.mem_cons_of_mem _ hz)

/-- mmapOp never changes the maximum resident size. -/
theorem mmapOp_maxRSS {mm mm2 : MemoryManager} {ar : AddrRange}
    {perms maxP : AccessType} {mid : Option Nat} {off : Nat} {priv : Bool}
    (heq : mm.mmapOp ar perms maxP mid off priv = .ok mm2) :
    mm2.maxRSS = mm.maxRSS := by
  unfold MemoryManager.mmapOp at heq
  split at heq
  · rw [Except.ok.injEq] at heq
    subst heq
    rfl
  · cases heq

/-- munmapOp never changes the maximum resident size. -/
theorem munmapOp_maxRSS {mm mm2 : MemoryManager} {ar : AddrRange}
    (heq : mm.munmapOp ar = .ok mm2) : mm2.maxRSS = mm.maxRSS := by
  unfold MemoryManager.munmapOp at heq
  split at heq
  · rw [Except.ok.injEq] at heq
    subst heq
    rfl
  · cases heq

/-- mprotectOp never changes the maximum resident size. -/
theorem mprotectOp_maxRSS {mm mm2 : MemoryManager} {ar : AddrRange}
    {perms : AccessType} (heq : mm.mprotectOp ar perms = .ok mm2) :
    mm2.maxRSS = mm.maxRSS := by
  unfold MemoryManager.mprotectOp at heq
  split at heq
  · split at heq
    · rw [Except.ok.injEq] at heq
      subst heq
      rfl
    · cases heq
  · cases heq

/-- resolveOp only ever raises the maximum resident size. -/
theorem resolveOp_maxRSS {w w2 : World} {ar : AddrRange} {acc : AccessType}
    {ig : Bool} (heq : w.resolveOp ar acc ig = .ok w2) :
    w.mm.maxRSS ≤ w2.mm.maxRSS := by
  unfold World.resolveOp at heq
  split at heq
  case isFalse => cases heq
  case isTrue har =>
    split at heq
    case h_1 => cases heq
    case h_2 rv hfind =>
      split at heq
      case isFalse => cases heq
      case isTrue =>
        rw [Except.ok.injEq] at heq
        subst heq
        exact Nat.le_max_left _ _

/-- invalidateOp never changes the maximum resident size. -/
theorem invalidateOp_maxRSS (mm : MemoryManager) (ar : AddrRange)
    (opts : InvalidateOpts) : (mm.invalidateOp ar opts).maxRSS = mm.maxRSS := by
  unfold MemoryManager.invalidateOp
  split
  · rfl
  · exact invalidateLocked_maxRSS mm ar opts

/-- C1: in every reachable state, every PMA's range is fully contained in
some VMA's range at identical addresses and no two PMAs overlap; and
remove-mapping first tears down every PMA overlapping the removed range, so
once it returns neither a PMA nor a VMA over that range remains — no PMA
outlives its VMA. -/
theorem C1_pma_never_outlives_vma :
    (∀ w : World, Reachable w →
      (∀ rp ∈ w.mm.pmas, ∃ rv ∈ w.mm.vmas, rv.1.isSupersetOf rp.1) ∧
      pairwiseDisjoint w.mm.pmas) ∧
    (∀ (mm mm2 : MemoryManager) (ar : AddrRange), mm.munmapOp ar = .ok mm2 →
      (∀ rp ∈ mm2.pmas, ¬ rp.1.overlaps ar) ∧
      (∀ rv ∈ mm2.vmas, ¬ rv.1.overlaps ar)) := by
  constructor
  · intro w hw
    have h := reachable_inv hw
    exact ⟨h.contained, h.pmasDisj⟩
  · intro mm mm2 ar heq
    unfold MemoryManager.munmapOp at heq
    split at heq
    · rw [Except.ok.injEq] at heq
      subst heq
      exact ⟨munmapLocked_clears_pmas mm ar, munmapLocked_clears_vmas mm ar⟩
    · cases heq

/-- Witness for C1 at concrete inputs. -/
theorem C1_pma_never_outlives_vma_witness :
    ((∀ rp ∈ c7Touched.mm.pmas, ∃ rv ∈ c7Touched.mm.vmas,
        rv.1.isSupersetOf rp.1) ∧ pairwiseDisjoint c7Touched.mm.pmas) ∧
    ((∀ rp ∈ (initMM.munmapLocked ⟨65536, 69632⟩).pmas,
        ¬ rp.1.overlaps (⟨65536, 69632⟩ : AddrRange)) ∧
     (∀ rv ∈ (initMM.munmapLocked ⟨65536, 69632⟩).vmas,
        ¬ rv.1.overlaps (⟨65536, 69632⟩ : AddrRange))) :=
  ⟨C1_pma_never_outlives_vma.1 c7Touched ⟨objs0, _, rfl⟩,
   C1_pma_never_outlives_vma.2 initMM _ ⟨65536, 69632⟩ (by rfl)⟩

/-- C4: for all operation sequences the VMA map remains non-overlapping
and every VMA's bounds are page-aligned (and nonempty). -/
theorem C4_vma_map_invariant (w : World) (hw : Reachable w) :
    pairwiseDisjoint w.mm.vmas ∧ ∀ rv ∈ w.mm.vmas, rv.1.wf := by
  have h := reachable_inv hw
  exact ⟨h.vmasDisj, h.vmasWF⟩

/-- Witness for C4 at a concrete reachable state. -/
theorem C4_vma_map_invariant_witness :
    pairwiseDisjoint c7Touched.mm.vmas ∧ ∀ rv ∈ c7Touched.mm.vmas, rv.1.wf :=
  C4_vma_map_invariant c7Touched ⟨objs0, _, rfl⟩

/-- C10: in every reachable state a private pma has the full translated
permission set and is backed by the MemoryManager's own memory file
(file 0); and an invalidation whose InvalidatePrivate option is false
leaves every private pma untouched. -/
theorem C10_private_pma_invariant :
    (∀ w : World, Reachable w → ∀ rp ∈ w.mm.pmas, rp.2.priv = true →
      rp.2.translatePerms = AccessType.anyAccess ∧ rp.2.fileId = 0) ∧
    (∀ (mm : MemoryManager) (ar : AddrRange), ∀ rp ∈ mm.pmas,
      rp.2.priv = true → rp ∈ (mm.invalidateOp ar ⟨false⟩).pmas) := by
  constructor
  · intro w hw
    exact (reachable_inv hw).privPma
  · intro mm ar rp hrp hp
    unfold MemoryManager.invalidateOp
    split
    · exact hrp
    · rw [invalidateLocked_pmas]
      exact invalidatePmas_keeps_private hrp hp

/-- Witness for C10 at concrete inputs. -/
theorem C10_private_pma_invariant_witness :
    (∀ rp ∈ c7Touched.mm.pmas, rp.2.priv = true →
      rp.2.translatePerms = AccessType.anyAccess ∧ rp.2.fileId = 0) ∧
    ((⟨4096, 8192⟩ : AddrRange),
      (⟨0, 0, AccessType.anyAccess, rwPerms.effective, AccessType.anyAccess,
        false, true⟩ : pma)) ∈
      (c8MM.invalidateOp ⟨4096, 12288⟩ ⟨false⟩).pmas :=
  ⟨C10_private_pma_invariant.1 c7Touched ⟨objs0, _, rfl⟩,
   C10_private_pma_invariant.2 c8MM ⟨4096, 12288⟩ _ (by decide) (by decide)⟩

/-- C7: the aggregate counters are exact: in every reachable state the
mapped-size counter equals the total span of the VMA map, the resident-size
counter equals the total span of the PMA map, and the maximum resident size
is an upper bound of the resident size that no operation ever decreases;
concretely, after mapping a 10-page anonymous region and touching 4 of its
pages the resident size is exactly 4 pages, and after unmapping it is 0. -/
theorem C7_accounting_exact :
    (∀ w : World, Reachable w →
      w.mm.usageAS = spanOf w.mm.vmas ∧ w.mm.curRSS = spanOf w.mm.pmas ∧
      w.mm.curRSS ≤ w.mm.maxRSS) ∧
    (∀ (w : World) (op : MmOp), w.mm.maxRSS ≤ (w.step op).mm.maxRSS) ∧
    (c7Touched.mm.curRSS = 16384 ∧ c7Unmapped.mm.curRSS = 0) := by
  refine ⟨?_, ?_, by decide, by decide⟩
  · intro w hw
    have h := reachable_inv hw
    exact ⟨h.usage, h.rss, h.maxRss⟩
  · intro w op
    cases op with
    | mmapF a len perms maxP mid off priv =>
      unfold World.step
      dsimp only
      rcases hres : w.mm.mmapOp ⟨a, a + len⟩ perms maxP mid off priv with e | mm2
      · exact Nat.le_refl _
      · rw [mmapOp_maxRSS hres]
    | munmapF a len =>
      unfold World.step
      dsimp only
      rcases hres : w.mm.munmapOp ⟨a, a + len⟩ with e | mm2
      · exact Nat.le_refl _
      · rw [munmapOp_maxRSS hres]
    | mprotectF a len perms =>
      unfold World.step
      dsimp only
      rcases hres : w.mm.mprotectOp ⟨a, a + len⟩ perms with e | mm2
      · exact Nat.le_refl _
      · rw [mprotectOp_maxRSS hres]
    | resolveF a len acc ig =>
      unfold World.step
      dsimp only
      rcases hres : w.resolveOp ⟨a, a + len⟩ acc ig with e | w2
      · exact Nat.le_refl _
      · exact resolveOp_maxRSS hres
    | invalidateF a len invPriv =>
      unfold World.step
      dsimp only
      split
      · rw [invalidateOp_maxRSS]
      · exact Nat.le_refl _
    | activateF => exact Nat.le_refl _

/-- Witness for C7 at a concrete reachable state. -/
theorem C7_accounting_exact_witness :
    (c7Touched.mm.usageAS = spanOf c7Touched.mm.vmas ∧
     c7Touched.mm.curRSS = spanOf c7Touched.mm.pmas ∧
     c7Touched.mm.curRSS ≤ c7Touched.mm.maxRSS) ∧
    c7Touched.mm.maxRSS ≤ (c7Touched.step (.munmapF 65536 40960)).mm.maxRSS :=
  ⟨C7_accounting_exact.1 c7Touched ⟨objs0, _, rfl⟩,
   C7_accounting_exact.2.1 c7Touched (.munmapF 65536 40960)⟩

/-- C9 counterexample: in a reachable state holding an AddressSpace
(asActive, i.e. as != nil), an external invalidation is propagated to the
Platform Address Space immediately at mutation time — an eager unmap call
is recorded and nothing is deferred to the next activation — refuting
"propagation is lazy ... never eagerly at mutation time". -/
theorem C9_counterexample :
    c9World.mm.asActive = true ∧ c9World.mm.platformUnmaps = [] ∧
    c9After.platformUnmaps = [⟨65536, 69632⟩] ∧
    c9After.unmapAllOnActivate = false := by decide

/-- C9 (amended): propagation of an invalidation to the Platform Address
Space is lazy exactly when no AddressSpace is held (as == nil): the
mutation then only sets unmapAllOnActivate, which the next activation
consumes; when an AddressSpace is held, the invalidation is propagated to
the platform immediately at mutation time. -/
theorem C9_lazy_only_without_as (mm : MemoryManager) (ar : AddrRange)
    (opts : InvalidateOpts) (hcap : mm.captureInvalidations = false)
    (hm : (mm.pmas.any fun rp =>
      decide (rp.1.overlaps ar) && pmaAffected opts rp.2) = true) :
    (mm.asActive = false →
      (mm.invalidateOp ar opts).platformUnmaps = mm.platformUnmaps ∧
      (mm.invalidateOp ar opts).unmapAllOnActivate = true ∧
      ((mm.invalidateOp ar opts).activate).unmapAllOnActivate = false) ∧
    (mm.asActive = true →
      (mm.invalidateOp ar opts).platformUnmaps = ar :: mm.platformUnmaps) := by
  unfold MemoryManager.invalidateOp
  rw [if_neg (by rw [hcap]; exact Bool.false_ne_true)]
  unfold MemoryManager.invalidateLocked
  constructor
  · intro hA
    rw [hA]
    dsimp only
    rw [hm]
    constructor
    · rw [if_neg (by simp)]
    · constructor
      · rw [if_pos (by simp)]
      · rfl
  · intro hA
    rw [hA]
    dsimp only
    rw [hm]
    rw [if_pos (by simp)]

/-- Witness for the amended C9 at a concrete reachable state. -/
theorem C9_lazy_only_without_as_witness :
    (c9World.mm.asActive = false →
      (c9World.mm.invalidateOp ⟨65536, 69632⟩ ⟨true⟩).platformUnmaps
        = c9World.mm.platformUnmaps ∧
      (c9World.mm.invalidateOp ⟨65536, 69632⟩ ⟨true⟩).unmapAllOnActivate = true ∧
      ((c9World.mm.invalidateOp ⟨65536, 69632⟩ ⟨true⟩).activate).unmapAllOnActivate
        = false) ∧
    (c9World.mm.asActive = true →
      (c9World.mm.invalidateOp ⟨65536, 69632⟩ ⟨true⟩).platformUnmaps
        = ⟨65536, 69632⟩ :: c9World.mm.platformUnmaps) :=
  C9_lazy_only_without_as c9World.mm ⟨65536, 69632⟩ ⟨true⟩ (by decide) (by decide)

/-- C5 counterexample: mapping with requested permissions write-only under
a read-write ceiling yields a VMA whose effectivePerms is read-write —
realPerms.Effective(), write implying read — which differs from
requestedPermissions ∩ objectCeiling (write-only), refuting
effectivePermissions == requestedPermissions ∩ objectCeiling. -/
theorem C5_counterexample :
    ((initMM.mmapOp ⟨4096, 8192⟩ ⟨false, true, false⟩ ⟨true, true, false⟩
        none 0 true).toOption.map
      (fun mm => mm.vmas.map fun rv =>
        (rv.2.effectivePerms, rv.2.realPerms.intersect rv.2.maxPerms)))
      = some [(⟨true, true, false⟩, ⟨false, true, false⟩)] ∧
    (⟨true, true, false⟩ : AccessType) ≠ ⟨false, true, false⟩ := by decide

/-- C5 (amended): in every reachable state every VMA satisfies the source's
documented invariant effectivePerms == realPerms.Effective(): the requested
permissions with read implied by write or execute; the object ceiling
(maxPerms) bounds protect operations separately instead of being
intersected into effectivePerms. -/
theorem C5_effective_perms (w : World) (hw : Reachable w) :
    ∀ rv ∈ w.mm.vmas, rv.2.effectivePerms = rv.2.realPerms.effective :=
  (reachable_inv hw).vmaPerms

/-- Witness for the amended C5 at the concrete vma of a reachable state. -/
theorem C5_effective_perms_witness :
    (⟨none, 0, rwPerms, rwPerms.effective, rwPerms.effective, true, false,
      false⟩ : vma).effectivePerms
      = (⟨none, 0, rwPerms, rwPerms.effective, rwPerms.effective, true, false,
        false⟩ : vma).realPerms.effective :=
  C5_effective_perms c7Touched ⟨objs0, _, rfl⟩
    (⟨65536, 106496⟩, ⟨none, 0, rwPerms, rwPerms.effective, rwPerms.effective,
      true, false, false⟩) (by decide)

/-- C3: once unmap has returned, any fault or resolve on an address of the
removed range fails with not-found: it observes neither the removed VMA,
nor any PMA over the range, nor stale data (a read through the pma map
yields nothing). -/
theorem C3_unmap_then_fault (w : World) (mm2 : MemoryManager) (ar : AddrRange)
    (a : Nat) (heq : w.mm.munmapOp ar = .ok mm2) (ha : ar.containsAddr a) :
    (∀ acc : AccessType, ({ w with mm := mm2 } : World).fault a acc
        = .error .notFound) ∧
    (∀ rp ∈ mm2.pmas, ¬ rp.1.containsAddr a) ∧
    (∀ rv ∈ mm2.vmas, ¬ rv.1.containsAddr a) ∧
    ({ w with mm := mm2 } : World).readAddr a = none := by
  unfold MemoryManager.munmapOp at heq
  split at heq
  case isFalse => cases heq
  case isTrue har =>
    rw [Except.ok.injEq] at heq
    subst heq
    unfold AddrRange.containsAddr at ha
    have hvm : ∀ rv ∈ (w.mm.munmapLocked ar).vmas, ¬ rv.1.containsAddr a := by
      intro rv hrv hc
      have hdis := munmapLocked_clears_vmas w.mm ar rv hrv
      unfold AddrRange.containsAddr at hc
      unfold AddrRange.overlaps at hdis
      omega
    have hpm : ∀ rp ∈ (w.mm.munmapLocked ar).pmas, ¬ rp.1.containsAddr a := by
      intro rp hrp hc
      have hdis := munmapLocked_clears_pmas w.mm ar rp hrp
      unfold AddrRange.containsAddr at hc
      unfold AddrRange.overlaps at hdis
      omega
    refine ⟨?_, hpm, hvm, ?_⟩
    · intro acc
      unfold World.fault World.resolveOp
      have hprwf : (⟨pageDown a, pageDown a + pageSize⟩ : AddrRange).wf := by
        unfold AddrRange.wf pageDown
        simp only [pageAligned_iff, pageSize]
        omega
      rw [if_pos hprwf]
      have hfind : findCovering (w.mm.munmapLocked ar).vmas
          ⟨pageDown a, pageDown a + pageSize⟩ = none := by
        unfold findCovering
        rw [List.find?_eq_none]
        intro rv hrv
        rw [decide_eq_true_eq]
        intro hsup
        refine hvm rv hrv ?_
        unfold AddrRange.isSupersetOf at hsup
        unfold AddrRange.containsAddr
        unfold pageDown pageSize at hsup
        dsimp only at hsup
        omega
      rw [hfind]
    · unfold World.readAddr
      have hfind : findCoveringAddr (w.mm.munmapLocked ar).pmas a = none := by
        unfold findCoveringAddr
        rw [List.find?_eq_none]
        intro rp hrp
        rw [decide_eq_true_eq]
        exact hpm rp hrp
      rw [hfind]

/-- Witness for C3 at concrete inputs: unmapping a mapped, resolved page
and faulting it again. -/
theorem C3_unmap_then_fault_witness :
    (∀ acc : AccessType,
      ({ c7Touched with mm := c7Touched.mm.munmapLocked ⟨65536, 106496⟩ } :
        World).fault 65536 acc = .error .notFound) ∧
    (∀ rp ∈ (c7Touched.mm.munmapLocked ⟨65536, 106496⟩).pmas,
        ¬ rp.1.containsAddr 65536) ∧
    (∀ rv ∈ (c7Touched.mm.munmapLocked ⟨65536, 106496⟩).vmas,
        ¬ rv.1.containsAddr 65536) ∧
    ({ c7Touched with mm := c7Touched.mm.munmapLocked ⟨65536, 106496⟩ } :
      World).readAddr 65536 = none :=
  C3_unmap_then_fault c7Touched _ ⟨65536, 106496⟩ 65536 (by rfl) (by decide)

/-- C6: when resolving an object-backed VMA, the Backing Object's translate
may return coverage broader than the requested range — the whole translated
source range is cached as one new pma rather than discarded — and the new
pma's effective rights are the VMA's effective permissions capped by the
translated permissions. -/
theorem C6_translate_broader_and_capped (w : World) (ar vr : AddrRange)
    (v : vma) (objId : Nat) (acc : AccessType) (ig : Bool)
    (hwf : ar.wf)
    (hfind : findCovering w.mm.vmas ar = some (vr, v))
    (hmap : v.mappable = some objId) (hpriv : v.priv = false)
    (hper : (ig || acc.subsetOf v.effectivePerms) = true)
    (hpmas : w.mm.pmas = []) :
    ∃ w2 : World, w.resolveOp ar acc ig = .ok w2 ∧
      w2.mm.pmas =
        [(⟨ar.start, min (ar.stop + (w.objs objId).growPages * pageSize) vr.stop⟩,
          ⟨objId, v.off + (ar.start - vr.start), (w.objs objId).ceiling,
           v.effectivePerms.intersect (w.objs objId).ceiling,
           v.maxPerms.intersect (w.objs objId).ceiling, false, false⟩)] ∧
      ar.stop ≤ (⟨ar.start,
        min (ar.stop + (w.objs objId).growPages * pageSize) vr.stop⟩ :
          AddrRange).stop := by
  have hsup := (findCovering_mem hfind).2
  dsimp only at hsup
  unfold World.resolveOp
  rw [if_pos hwf, hfind]
  dsimp only
  rw [if_pos hper]
  refine ⟨_, rfl, ?_, ?_⟩
  · rw [hpmas]
    rw [breakCowAll_id (by intro x hx; cases hx) _ _]
    have hgaps : gapsIn vr ([] : List (AddrRange × pma)) = [vr] := rfl
    have hov : vr.overlaps ar := by
      unfold AddrRange.overlaps AddrRange.isSupersetOf at *
      unfold AddrRange.wf at hwf
      omega
    have hfil : (gapsIn vr ([] : List (AddrRange × pma))).filter
        (fun g => decide (g.overlaps ar)) = [vr] := by
      rw [hgaps]
      rw [List.filter_cons]
      rw [if_pos (by rw [decide_eq_true_eq]; exact hov)]
      rfl
    rw [hfil]
    rw [populateGaps]
    rw [hmap]
    dsimp only
    rw [populateGaps]
    have hreq : interRange vr ar = ar :=
      interRange_eq_right hsup.1 hsup.2
    unfold BackingObject.translate
    rw [hreq, hpriv]
    rfl
  · have hsup2 := (findCovering_mem hfind).2
    unfold AddrRange.isSupersetOf at hsup2
    dsimp only at hsup2
    omega

/-- Witness for C6: a read-write vma over object 2 whose translate returns
one extra page (clamped to the vma) and a read-only ceiling; the cached pma
covers two pages for a one-page request, with effective rights capped to
read-only. -/
theorem C6_translate_broader_and_capped_witness :
    ∃ w2 : World, c6World.resolveOp ⟨4096, 8192⟩ rwPerms false = .ok w2 ∧
      w2.mm.pmas =
        [(⟨4096, min (8192 + (c6World.objs 2).growPages * pageSize) 16384⟩,
          ⟨2, 0 + (4096 - 4096), (c6World.objs 2).ceiling,
           (rwPerms.effective).intersect (c6World.objs 2).ceiling,
           AccessType.anyAccess.intersect (c6World.objs 2).ceiling,
           false, false⟩)] ∧
      8192 ≤ (⟨4096, min (8192 + (c6World.objs 2).growPages * pageSize) 16384⟩ :
        AddrRange).stop :=
  C6_translate_broader_and_capped c6World ⟨4096, 8192⟩ ⟨4096, 16384⟩
    _ 2 rwPerms false (by decide) (by rfl) (by rfl) (by rfl) (by decide) (by rfl)

/-- C2: a write access through a private VMA whose resolved pma is not
private (it caches a shared translation) triggers exactly one
copy-on-write break for the faulting sub-range: fresh private storage is
allocated at the allocation cursor, the current content is copied into it,
and the pma entry is replaced for exactly the faulting sub-range, the rest
of the old pma staying intact; resolving the same range again performs no
further break or allocation, and mutating a Backing Object's content
afterwards does not change what is read through the private copy. -/
theorem C2_cow_break (w : World) (ar vr r : AddrRange) (v : vma) (p : pma)
    (pre post : List (AddrRange × pma)) (acc : AccessType) (ig : Bool)
    (hwf : ar.wf)
    (hfind : findCovering w.mm.vmas ar = some (vr, v))
    (hvpriv : v.priv = true) (hppriv : p.priv = false)
    (hacc : acc.write = true)
    (hper : (ig || acc.subsetOf v.effectivePerms) = true)
    (hpmas : w.mm.pmas = pre ++ (r, p) :: post)
    (hsub : r.isSupersetOf ar)
    (hpre : ∀ x ∈ pre, ¬ x.1.overlaps ar)
    (hpost : ∀ x ∈ post, ¬ x.1.overlaps ar) :
    ∃ w2 : World, w.resolveOp ar acc ig = .ok w2 ∧
      w2.mm.pmas = pre ++ (cutPma ar r p ++
        [(ar, ⟨0, w.mm.nextPrivateOff, AccessType.anyAccess, v.effectivePerms,
          v.maxPerms, false, true⟩)] ++ post) ∧
      w2.mm.nextPrivateOff = w.mm.nextPrivateOff + ar.length ∧
      (∀ k : Nat, k < ar.length →
        w2.store 0 (w.mm.nextPrivateOff + k)
          = w.store p.fileId (p.off + (ar.start - r.start) + k)) ∧
      (∃ w3 : World, w2.resolveOp ar acc ig = .ok w3 ∧
        w3.mm.pmas = w2.mm.pmas ∧
        w3.mm.nextPrivateOff = w2.mm.nextPrivateOff ∧ w3.store = w2.store) ∧
      (∀ f off1 val a1 : Nat, f ≠ 0 → ar.containsAddr a1 →
        (w2.mutateObject f off1 val).readAddr a1 = w2.readAddr a1 ∧
        w2.readAddr a1
          = some (w2.store 0 (w.mm.nextPrivateOff + (a1 - ar.start)))) := by
  unfold AddrRange.isSupersetOf at hsub
  have hinter : interRange ar r = ar := interRange_eq_left hsub.1 hsub.2
  have hoverlap : r.overlaps ar := by
    unfold AddrRange.overlaps
    unfold AddrRange.wf at hwf
    omega
  have hcond : (decide (r.overlaps ar) && acc.write && v.priv && !p.priv)
      = true := by
    rw [hacc, hvpriv, hppriv, decide_eq_true hoverlap]
    rfl
  have hprefalse : ∀ x ∈ pre, decide (x.1.overlaps ar) = false := by
    intro x hx
    exact decide_eq_false (hpre x hx)
  have hpostfalse : ∀ x ∈ post,
      (decide (x.1.overlaps ar) && acc.write && v.priv && !x.2.priv)
        = false := by
    intro x hx
    rw [decide_eq_false (hpost x hx)]
    rfl
  have heq1 : breakCowAll ar v acc ((r, p) :: post) w.mm.nextPrivateOff w.store
      = (cutPma ar r p ++
          [(ar, ⟨0, w.mm.nextPrivateOff, AccessType.anyAccess, v.effectivePerms,
            v.maxPerms, false, true⟩)] ++ post,
         w.mm.nextPrivateOff + ar.length,
         copyRange w.store w.mm.nextPrivateOff p.fileId
           (p.off + (ar.start - r.start)) ar.length) := by
    rw [breakCowAll, if_pos hcond]
    dsimp only
    rw [hinter]
    rw [breakCowAll_id hpostfalse]
  have hb := @breakCowAll_untouchedPre ar v acc pre ((r, p) :: post)
    hprefalse w.mm.nextPrivateOff w.store
  rw [heq1] at hb
  dsimp only at hb
  have hmem : ((ar, ⟨0, w.mm.nextPrivateOff, AccessType.anyAccess,
      v.effectivePerms, v.maxPerms, false, true⟩) : AddrRange × pma) ∈
      pre ++ (cutPma ar r p ++
        [(ar, ⟨0, w.mm.nextPrivateOff, AccessType.anyAccess, v.effectivePerms,
          v.maxPerms, false, true⟩)] ++ post) := by
    refine List.mem_append.2 (Or.inr ?_)
    refine List.mem_append.2 (Or.inl ?_)
    exact List.mem_append.2 (Or.inr (List.mem_singleton.2 rfl))
  have hgs : (gapsIn vr (pre ++ (cutPma ar r p ++
      [(ar, ⟨0, w.mm.nextPrivateOff, AccessType.anyAccess, v.effectivePerms,
        v.maxPerms, false, true⟩)] ++ post))).filter
      (fun g => decide (g.overlaps ar)) = [] := by
    rw [List.filter_eq_nil_iff]
    intro g hg
    have hd := gapsIn_disjoint vr g hg _ hmem
    simp only [decide_eq_true_eq]
    exact hd
  unfold World.resolveOp
  rw [if_pos hwf, hfind]
  dsimp only
  rw [if_pos hper, hpmas, hb]
  dsimp only
  rw [hgs, populateGaps]
  refine ⟨_, rfl, ?_, rfl, ?_, ?_, ?_⟩
  · dsimp only
    rw [List.append_nil]
  · intro k hk
    show copyRange w.store w.mm.nextPrivateOff p.fileId
        (p.off + (ar.start - r.start)) ar.length 0 (w.mm.nextPrivateOff + k)
      = w.store p.fileId (p.off + (ar.start - r.start) + k)
    unfold copyRange
    rw [if_pos ⟨rfl, Nat.le_add_right _ _, by omega⟩]
    have hkk : w.mm.nextPrivateOff + k - w.mm.nextPrivateOff = k := by omega
    rw [hkk]
  · -- resolving the same range again performs no further break or allocation
    have hnb : ∀ x ∈ pre ++ (cutPma ar r p ++
        [(ar, ⟨0, w.mm.nextPrivateOff, AccessType.anyAccess, v.effectivePerms,
          v.maxPerms, false, true⟩)] ++ post),
        (decide (x.1.overlaps ar) && acc.write && v.priv && !x.2.priv)
          = false := by
      intro x hx
      rcases List.mem_append.1 hx with hx1 | hx1
      · rw [hprefalse x hx1]
        rfl
      · rcases List.mem_append.1 hx1 with hx2 | hx2
        · rcases List.mem_append.1 hx2 with hx3 | hx3
          · rcases mem_cutPma hx3 with ⟨hs, _⟩
            rw [decide_eq_false (mem_cutOutside_sub hs).2.2.2]
            rfl
          · rw [List.mem_singleton] at hx3
            subst hx3
            simp
        · exact hpostfalse x hx2
    rw [if_pos hwf]
    rw [hfind]
    dsimp only
    rw [if_pos hper]
    rw [List.append_nil, breakCowAll_id hnb]
    dsimp only
    rw [hgs, populateGaps]
    exact ⟨_, rfl, by dsimp only; rw [List.append_nil], rfl, rfl⟩
  · intro f off1 val a1 hf ha1
    unfold AddrRange.containsAddr at ha1
    have hfa : findCoveringAddr ((pre ++ (cutPma ar r p ++
        [(ar, ⟨0, w.mm.nextPrivateOff, AccessType.anyAccess, v.effectivePerms,
          v.maxPerms, false, true⟩)] ++ post)) ++ ([] : List (AddrRange × pma)))
        a1 = some (ar, ⟨0, w.mm.nextPrivateOff, AccessType.anyAccess,
          v.effectivePerms, v.maxPerms, false, true⟩) := by
      rw [List.append_nil]
      unfold findCoveringAddr
      rw [find?_append_of_none ?hp1]
      case hp1 =>
        intro x hx
        refine decide_eq_false ?_
        intro hc
        have := hpre x hx
        unfold AddrRange.containsAddr at hc
        unfold AddrRange.overlaps at this
        omega
      rw [List.append_assoc]
      rw [find?_append_of_none ?hp2]
      case hp2 =>
        intro x hx
        rcases mem_cutPma hx with ⟨hs, _⟩
        have := (mem_cutOutside_sub hs).2.2.2
        refine decide_eq_false ?_
        intro hc
        unfold AddrRange.containsAddr at hc
        unfold AddrRange.overlaps at this
        omega
      rw [List.singleton_append]
      refine List.find?_cons_of_pos _ ?_
      rw [decide_eq_true_eq]
      exact ⟨ha1.1, ha1.2⟩
    constructor
    · unfold World.mutateObject
      rw [if_neg hf]
      unfold World.readAddr
      dsimp only
      rw [hfa]
      dsimp only
      rw [if_neg (fun hcon => hf hcon.1.symm)]
    · unfold World.readAddr
      dsimp only
      rw [hfa]

/-- Witness for C2 at a concrete world: a write fault on the middle page of
a three-page private mapping whose pma caches a shared translation. -/
theorem C2_cow_break_witness :
    ∃ w2 : World, c2World.resolveOp ⟨8192, 12288⟩ rwPerms false = .ok w2 ∧
      w2.mm.pmas = [] ++ (cutPma ⟨8192, 12288⟩ ⟨4096, 16384⟩ c2pma ++
        [(⟨8192, 12288⟩, ⟨0, c2World.mm.nextPrivateOff, AccessType.anyAccess,
          c2vma.effectivePerms, c2vma.maxPerms, false, true⟩)] ++ []) ∧
      w2.mm.nextPrivateOff
        = c2World.mm.nextPrivateOff + (⟨8192, 12288⟩ : AddrRange).length ∧
      (∀ k : Nat, k < (⟨8192, 12288⟩ : AddrRange).length →
        w2.store 0 (c2World.mm.nextPrivateOff + k)
          = c2World.store c2pma.fileId (c2pma.off + (8192 - 4096) + k)) ∧
      (∃ w3 : World, w2.resolveOp ⟨8192, 12288⟩ rwPerms false = .ok w3 ∧
        w3.mm.pmas = w2.mm.pmas ∧
        w3.mm.nextPrivateOff = w2.mm.nextPrivateOff ∧ w3.store = w2.store) ∧
      (∀ f off1 val a1 : Nat, f ≠ 0 →
        (⟨8192, 12288⟩ : AddrRange).containsAddr a1 →
        (w2.mutateObject f off1 val).readAddr a1 = w2.readAddr a1 ∧
        w2.readAddr a1
          = some (w2.store 0 (c2World.mm.nextPrivateOff + (a1 - 8192)))) :=
  C2_cow_break c2World ⟨8192, 12288⟩ ⟨4096, 16384⟩ ⟨4096, 16384⟩ c2vma c2pma
    [] [] rwPerms false (by decide) (by rfl) rfl rfl rfl (by decide) rfl
    (by decide) (by simp) (by simp)

/-- C8: during a fork of address space A into B, every invalidation
delivered to A in the fork window is captured in the pending list instead
of being applied to A's pmas; after the fork completes, the captured list
is replayed against B and reapplied to A (and cleared), so no invalidation
is lost, and neither B nor A retains a pma over an address that was
invalidated during the window. -/
theorem C8_fork_invalidation_capture (mm : MemoryManager)
    (invs : List invalidateArgs)
    (h0 : mm.captureInvalidations = false)
    (h1 : mm.capturedInvalidations = []) :
    (deliverInvs mm.forkBegin.1 invs).pmas = mm.forkBegin.1.pmas ∧
    (deliverInvs mm.forkBegin.1 invs).capturedInvalidations = invs ∧
    (forkEnd (deliverInvs mm.forkBegin.1 invs) mm.forkBegin.2).1.pmas
      = (mm.forkBegin.1.applyAllInvs invs).pmas ∧
    (forkEnd (deliverInvs mm.forkBegin.1 invs) mm.forkBegin.2).2.pmas
      = (mm.forkBegin.2.applyAllInvs invs).pmas ∧
    (forkEnd (deliverInvs mm.forkBegin.1 invs)
        mm.forkBegin.2).1.captureInvalidations = false ∧
    (forkEnd (deliverInvs mm.forkBegin.1 invs)
        mm.forkBegin.2).1.capturedInvalidations = [] ∧
    (∀ arg ∈ invs, arg.opts.invalidatePrivate = true →
      ∀ a : Nat, arg.ar.containsAddr a →
        (∀ rp ∈ (forkEnd (deliverInvs mm.forkBegin.1 invs)
            mm.forkBegin.2).2.pmas, ¬ rp.1.containsAddr a) ∧
        (∀ rp ∈ (forkEnd (deliverInvs mm.forkBegin.1 invs)
            mm.forkBegin.2).1.pmas, ¬ rp.1.containsAddr a)) := by
  have hA1cap : mm.forkBegin.1.captureInvalidations = true := rfl
  have hA1list : mm.forkBegin.1.capturedInvalidations
      = ([] : List invalidateArgs) := h1
  have hdel := @deliverInvs_capture invs mm.forkBegin.1 hA1cap
  rw [hA1list, List.nil_append] at hdel
  have hchild : (forkEnd (deliverInvs mm.forkBegin.1 invs)
      mm.forkBegin.2).2.pmas
      = invs.foldl (fun ps a3 => invalidatePmas a3.ar a3.opts ps)
        mm.forkBegin.2.pmas := by
    rw [hdel]
    show (mm.forkBegin.2.applyAllInvs invs).pmas = _
    exact applyAllInvs_pmas invs mm.forkBegin.2
  have hparent : (forkEnd (deliverInvs mm.forkBegin.1 invs)
      mm.forkBegin.2).1.pmas
      = invs.foldl (fun ps a3 => invalidatePmas a3.ar a3.opts ps)
        mm.forkBegin.1.pmas := by
    rw [hdel]
    show (({ mm.forkBegin.1 with capturedInvalidations := invs } :
        MemoryManager).applyAllInvs invs).pmas = _
    exact applyAllInvs_pmas invs _
  refine ⟨by rw [hdel], by rw [hdel], ?_, ?_, rfl, rfl, ?_⟩
  · rw [hparent, applyAllInvs_pmas]
  · rw [hchild, applyAllInvs_pmas]
  · intro arg harg hpriv a ha
    constructor
    · intro rp hrp
      rw [hchild] at hrp
      exact foldl_invalidatePmas_noCover harg hpriv ha _ rp hrp
    · intro rp hrp
      rw [hparent] at hrp
      exact foldl_invalidatePmas_noCover harg hpriv ha _ rp hrp

/-- Witness for C8 at a concrete MemoryManager and invalidation list. -/
theorem C8_fork_invalidation_capture_witness :
    (deliverInvs c8MM.forkBegin.1 c8Invs).pmas = c8MM.forkBegin.1.pmas ∧
    (deliverInvs c8MM.forkBegin.1 c8Invs).capturedInvalidations = c8Invs ∧
    (forkEnd (deliverInvs c8MM.forkBegin.1 c8Invs) c8MM.forkBegin.2).1.pmas
      = (c8MM.forkBegin.1.applyAllInvs c8Invs).pmas ∧
    (forkEnd (deliverInvs c8MM.forkBegin.1 c8Invs) c8MM.forkBegin.2).2.pmas
      = (c8MM.forkBegin.2.applyAllInvs c8Invs).pmas ∧
    (forkEnd (deliverInvs c8MM.forkBegin.1 c8Invs)
        c8MM.forkBegin.2).1.captureInvalidations = false ∧
    (forkEnd (deliverInvs c8MM.forkBegin.1 c8Invs)
        c8MM.forkBegin.2).1.capturedInvalidations = [] ∧
    (∀ arg ∈ c8Invs, arg.opts.invalidatePrivate = true →
      ∀ a : Nat, arg.ar.containsAddr a →
        (∀ rp ∈ (forkEnd (deliverInvs c8MM.forkBegin.1 c8Invs)
            c8MM.forkBegin.2).2.pmas, ¬ rp.1.containsAddr a) ∧
        (∀ rp ∈ (forkEnd (deliverInvs c8MM.forkBegin.1 c8Invs)
            c8MM.forkBegin.2).1.pmas, ¬ rp.1.containsAddr a)) :=
  C8_fork_invalidation_capture c8MM c8Invs rfl rfl
